import Mathlib

/-!
Shallow embedding of the starview asset-resolution and bulk-download engine
(crates starview_net, starview_core), together with theorems settling the
frozen claims about its specification.

The embedding follows the Rust sources:
- `crates/starview_net/src/models.rs` (asset manifests and their merge),
- `crates/starview_net/src/client.rs` (per-device resolution),
- `crates/starview_net/src/crypto.rs` (request checksum, wire envelope),
- `crates/starview_core/src/cache/models.rs` (fetch cache),
- `crates/starview_core/src/fetch/fetcher.rs` (orchestrator),
- `crates/starview_core/src/download/download.rs` and `config.rs` (downloader).

Rust `HashMap`/`HashSet` (std, RandomState) make no guarantee about iteration
order, so maps built by `entry(..).or_insert(..)` are embedded as association
lists that record insertion order, and any place the Rust code iterates a map
(`into_values`) is embedded as a relation quantifying over all permutations of
the recorded entries.
-/

namespace Starview

/-- Device variant, from `starview_common/src/enums.rs` (`DeviceType`). -/
inductive DeviceType where
  | ios
  | android
  | all
deriving DecidableEq, Repr

/-- Requested asset size class, from `starview_common/src/enums.rs` (`AssetSize`). -/
inductive AssetSize where
  | full
  | short
deriving DecidableEq, Repr

/-- One archive entry of a manifest, from `starview_net/src/models.rs`
(`AssetPathArchive`): a server-relative location, a declared byte size and a
hex content hash. -/
structure AssetPathArchive where
  location : String
  size : Nat
  sha256 : String
deriving DecidableEq, Repr

/-- Resolution metadata of a manifest, from `starview_net/src/models.rs`
(`AssetPathsInfo`). -/
structure AssetPathsInfo where
  client_asset_version : String
  target_asset_version : String
  eventual_target_asset_version : String
  is_initial : Bool
  latest_maj_first_version : String
deriving DecidableEq, Repr

/-- The full archive set of a manifest, from `starview_net/src/models.rs`
(`AssetPathsFull`). -/
structure AssetPathsFull where
  version : String
  archive : List AssetPathArchive
deriving DecidableEq, Repr

/-- One diff archive set of a manifest, from `starview_net/src/models.rs`
(`AssetPathDiff`). -/
structure AssetPathDiff where
  version : String
  original_version : String
  archive : List AssetPathArchive
deriving DecidableEq, Repr

/-- A resolved asset manifest, from `starview_net/src/models.rs` (`AssetPaths`). -/
structure AssetPaths where
  info : AssetPathsInfo
  full : AssetPathsFull
  diff : List AssetPathDiff
  asset_version_hash : String
deriving DecidableEq, Repr

/-- Version info for one concrete device variant, from
`starview_net/src/models.rs` (`AssetVersionInfo`). -/
structure AssetVersionInfo where
  base_url : String
  files_list : String
  total_size : Nat
  delayed_assets_size : Nat
deriving DecidableEq, Repr

/-! ## The manifest merge (`AssetPaths::extend`, models.rs lines 166-237)

`extend` builds a `HashMap<String, AssetPathArchive>` keyed by `sha256` with
`entry(..).or_insert(..)` (first occurrence wins) over `self`'s full archives
chained before `with`'s, and a `HashMap<String, AssetPathsDiffMapEntry>` keyed
by `diff.version` the same way, accumulating each diff's archives into the
entry's own hash-keyed archive map.  Both maps are embedded as lists in
insertion order; `into_values()` order is arbitrary and is handled by the
relation `ExtendOutcome` below. -/

/-- One step of building the full-archive map: `entry(sha256).or_insert(archive)`.
The key of each entry always equals the stored archive's `sha256`, so the map is
carried as the list of its values in insertion order and an occupied entry is
detected by key membership. -/
def fullMapInsert (m : List AssetPathArchive) (a : AssetPathArchive) : List AssetPathArchive :=
  if a.sha256 ∈ m.map (fun x => x.sha256) then m else m ++ [a]

/-- The full-archive map built by `AssetPaths::extend` over a traversal list
(`self.full.archive` chained before `with.full.archive`), in insertion order. -/
def fullMapFold (l : List AssetPathArchive) : List AssetPathArchive :=
  l.foldl fullMapInsert []

/-- Mirror of the private struct `AssetPathsDiffMapEntry` (models.rs lines
213-227): the diff key data plus a hash-keyed archive map, carried as the list
of its values in insertion order. -/
structure AssetPathsDiffMapEntry where
  version : String
  original_version : String
  archive_map : List AssetPathArchive
deriving DecidableEq, Repr

/-- `impl Into<AssetPathDiff> for AssetPathsDiffMapEntry` (models.rs lines
229-237), with the inner `into_values()` read in insertion order (the
surrounding relation supplies the permutation). -/
def AssetPathsDiffMapEntry.toDiff (e : AssetPathsDiffMapEntry) : AssetPathDiff :=
  ⟨e.version, e.original_version, e.archive_map⟩

/-- One iteration of the diff loop in `AssetPaths::extend` (models.rs lines
184-198): `diff_map.entry(diff.version).or_insert(new(diff.version,
diff.original_version))`, then each of the diff's archives is inserted into the
entry's archive map with `entry(sha256).or_insert(archive)`.  A `HashMap` holds
at most one entry per key, so updating the occupied entry in place is embedded
as a pointwise update (`occupiedUpdate`) of the (key-unique) carried list. -/
def occupiedUpdate (d : AssetPathDiff) (e : AssetPathsDiffMapEntry) :
    AssetPathsDiffMapEntry :=
  if e.version = d.version then
    { e with archive_map := d.archive.foldl fullMapInsert e.archive_map }
  else e

/-- See `occupiedUpdate`. -/
def diffMapStep (m : List AssetPathsDiffMapEntry) (d : AssetPathDiff) :
    List AssetPathsDiffMapEntry :=
  if d.version ∈ m.map (fun e => e.version) then
    m.map (occupiedUpdate d)
  else m ++ [⟨d.version, d.original_version, d.archive.foldl fullMapInsert []⟩]

/-- The diff map built by `AssetPaths::extend` over `self.diff` chained before
`with.diff`, in insertion order. -/
def diffMapFold (l : List AssetPathDiff) : List AssetPathsDiffMapEntry :=
  l.foldl diffMapStep []

/-- How one produced diff set may look, given its map entry: the key data is
the entry's, and the archive list is `archive_map.into_values()` in some
arbitrary order. -/
def DiffOutcome (e : AssetPathsDiffMapEntry) (d : AssetPathDiff) : Prop :=
  d.version = e.version ∧ d.original_version = e.original_version ∧
    d.archive.Perm e.archive_map

/-- All possible results of `self.extend(with)` (models.rs lines 170-209):
`info`, `full.version` and `asset_version_hash` are taken from `self`;
`full.archive` is `full_archives_map.into_values()` in some arbitrary order;
`diff` is `diff_map.into_values()` in some arbitrary order, each entry
converted via `Into<AssetPathDiff>` with its own inner arbitrary order. -/
def ExtendOutcome (a b r : AssetPaths) : Prop :=
  r.info = a.info ∧
  r.full.version = a.full.version ∧
  r.asset_version_hash = a.asset_version_hash ∧
  r.full.archive.Perm (fullMapFold (a.full.archive ++ b.full.archive)) ∧
  ∃ es : List AssetPathsDiffMapEntry,
    es.Perm (diffMapFold (a.diff ++ b.diff)) ∧ List.Forall₂ DiffOutcome es r.diff

/-- A canonical representative of `extend`: every map is read back in insertion
order. -/
def AssetPaths.extend (a b : AssetPaths) : AssetPaths :=
  { info := a.info
    full := { version := a.full.version
              archive := fullMapFold (a.full.archive ++ b.full.archive) }
    diff := (diffMapFold (a.diff ++ b.diff)).map AssetPathsDiffMapEntry.toDiff
    asset_version_hash := a.asset_version_hash }

theorem forall₂_diffOutcome_toDiff (l : List AssetPathsDiffMapEntry) :
    List.Forall₂ DiffOutcome l (l.map AssetPathsDiffMapEntry.toDiff) := by
  induction l with
  | nil => exact List.Forall₂.nil
  | cons e rest ih => exact List.Forall₂.cons ⟨rfl, rfl, List.Perm.refl _⟩ ih

theorem extend_is_outcome (a b : AssetPaths) : ExtendOutcome a b (a.extend b) :=
  ⟨rfl, rfl, rfl, List.Perm.refl _, diffMapFold (a.diff ++ b.diff), List.Perm.refl _,
    forall₂_diffOutcome_toDiff _⟩

/-! ## Specification-side descriptions of the merge

These recursions are written the way the spec describes the merge ("union by
content hash, first occurrence wins, preserving the order archives are
discovered") and are proved equal to the fold-based embedding above. -/

/-- First-occurrence-wins union of archive entries keyed by content hash, in
discovery order, given the set of hashes already taken. -/
def firstWinsByHash (seen : List String) : List AssetPathArchive → List AssetPathArchive
  | [] => []
  | a :: rest =>
      if a.sha256 ∈ seen then firstWinsByHash seen rest
      else a :: firstWinsByHash (a.sha256 :: seen) rest

theorem firstWinsByHash_congr :
    ∀ (l : List AssetPathArchive) (s₁ s₂ : List String), (∀ x, x ∈ s₁ ↔ x ∈ s₂) →
      firstWinsByHash s₁ l = firstWinsByHash s₂ l := by
  intro l
  induction l with
  | nil => intro s₁ s₂ _; rfl
  | cons a rest ih =>
      intro s₁ s₂ h
      by_cases hm : a.sha256 ∈ s₁
      · rw [firstWinsByHash, firstWinsByHash, if_pos hm, if_pos ((h _).mp hm), ih _ _ h]
      · rw [firstWinsByHash, firstWinsByHash, if_neg hm, if_neg (fun hc => hm ((h _).mpr hc))]
        rw [ih (a.sha256 :: s₁) (a.sha256 :: s₂) ?_]
        intro x
        simp only [List.mem_cons]
        exact or_congr Iff.rfl (h x)

theorem foldl_fullMapInsert_eq :
    ∀ (l : List AssetPathArchive) (m : List AssetPathArchive),
      l.foldl fullMapInsert m = m ++ firstWinsByHash (m.map (fun x => x.sha256)) l := by
  intro l
  induction l with
  | nil => intro m; simp [firstWinsByHash]
  | cons a rest ih =>
      intro m
      rw [List.foldl_cons]
      by_cases hm : a.sha256 ∈ m.map (fun x => x.sha256)
      · rw [show fullMapInsert m a = m from if_pos hm, ih m, firstWinsByHash, if_pos hm]
      · rw [show fullMapInsert m a = m ++ [a] from if_neg hm, ih (m ++ [a])]
        rw [firstWinsByHash, if_neg hm]
        rw [firstWinsByHash_congr rest ((m ++ [a]).map (fun x => x.sha256))
              (a.sha256 :: m.map (fun x => x.sha256)) ?_]
        · simp
        · intro x
          simp only [List.map_append, List.map_cons, List.map_nil, List.mem_append,
            List.mem_cons, List.mem_singleton, List.not_mem_nil, or_false]
          exact Or.comm

theorem fullMapFold_eq_firstWins (l : List AssetPathArchive) :
    fullMapFold l = firstWinsByHash [] l := by
  rw [fullMapFold, foldl_fullMapInsert_eq]
  rfl

/-- Specification-side description of the merged diff list: for the first
occurrence of each diff version (discovery order), one diff set whose
`original_version` is that first occurrence's, and whose archives are the
first-occurrence-wins hash union of the archives of every input diff carrying
that version, own archives first. -/
def newDiffSets (seen : List String) : List AssetPathDiff → List AssetPathDiff
  | [] => []
  | d :: rest =>
      if d.version ∈ seen then newDiffSets seen rest
      else
        ⟨d.version, d.original_version,
          firstWinsByHash []
            (d.archive ++ (rest.filter (fun x => x.version == d.version)).flatMap
              (fun x => x.archive))⟩
        :: newDiffSets (d.version :: seen) rest

theorem newDiffSets_congr :
    ∀ (l : List AssetPathDiff) (s₁ s₂ : List String), (∀ x, x ∈ s₁ ↔ x ∈ s₂) →
      newDiffSets s₁ l = newDiffSets s₂ l := by
  intro l
  induction l with
  | nil => intro s₁ s₂ _; rfl
  | cons d rest ih =>
      intro s₁ s₂ h
      by_cases hm : d.version ∈ s₁
      · rw [newDiffSets, newDiffSets, if_pos hm, if_pos ((h _).mp hm), ih _ _ h]
      · rw [newDiffSets, newDiffSets, if_neg hm, if_neg (fun hc => hm ((h _).mpr hc))]
        rw [ih (d.version :: s₁) (d.version :: s₂) ?_]
        intro x
        simp only [List.mem_cons]
        exact or_congr Iff.rfl (h x)

/-- How processing the remaining diffs extends an already-present map entry:
the archives of every remaining diff carrying the entry's version are folded
into its archive map. -/
def entryExtend (e : AssetPathsDiffMapEntry) (ds : List AssetPathDiff) :
    AssetPathsDiffMapEntry :=
  { e with
    archive_map :=
      ((ds.filter (fun d => d.version == e.version)).flatMap (fun d => d.archive)).foldl
        fullMapInsert e.archive_map }

/-- Reads a diff set back as a map entry whose archive map is the diff's
archive list. -/
def AssetPathDiff.toEntry (d : AssetPathDiff) : AssetPathsDiffMapEntry :=
  ⟨d.version, d.original_version, d.archive⟩

theorem entryExtend_nil (e : AssetPathsDiffMapEntry) : entryExtend e [] = e := rfl

theorem occupiedUpdate_version (d : AssetPathDiff) (e : AssetPathsDiffMapEntry) :
    (occupiedUpdate d e).version = e.version := by
  rw [occupiedUpdate]
  split <;> rfl

theorem entryExtend_occupiedUpdate (d : AssetPathDiff) (rest : List AssetPathDiff)
    (e : AssetPathsDiffMapEntry) :
    entryExtend (occupiedUpdate d e) rest = entryExtend e (d :: rest) := by
  by_cases he : e.version = d.version
  · rw [occupiedUpdate, if_pos he]
    simp only [entryExtend, List.filter_cons]
    have hbeq : (d.version == e.version) = true := by
      simp [he]
    simp [hbeq, List.foldl_append]
  · rw [occupiedUpdate, if_neg he]
    simp only [entryExtend, List.filter_cons]
    have hbeq : (d.version == e.version) = false := by
      simp only [beq_eq_false_iff_ne, ne_eq]
      exact fun hc => he hc.symm
    simp [hbeq]

theorem entryExtend_notOccupied (d : AssetPathDiff) (rest : List AssetPathDiff)
    (e : AssetPathsDiffMapEntry) (hne : e.version ≠ d.version) :
    entryExtend e rest = entryExtend e (d :: rest) := by
  simp only [entryExtend, List.filter_cons]
  have hbeq : (d.version == e.version) = false := by
    simp only [beq_eq_false_iff_ne, ne_eq]
    exact fun hc => hne hc.symm
  simp [hbeq]

theorem entryExtend_new (d : AssetPathDiff) (rest : List AssetPathDiff) :
    entryExtend ⟨d.version, d.original_version, d.archive.foldl fullMapInsert []⟩ rest
      = AssetPathDiff.toEntry ⟨d.version, d.original_version,
          firstWinsByHash []
            (d.archive ++ (rest.filter (fun x => x.version == d.version)).flatMap
              (fun x => x.archive))⟩ := by
  simp only [entryExtend, AssetPathDiff.toEntry]
  rw [← List.foldl_append, foldl_fullMapInsert_eq]
  rfl

theorem diffFold_spec :
    ∀ (ds : List AssetPathDiff) (m : List AssetPathsDiffMapEntry),
      ds.foldl diffMapStep m =
        m.map (fun e => entryExtend e ds)
          ++ (newDiffSets (m.map (fun e => e.version)) ds).map AssetPathDiff.toEntry := by
  intro ds
  induction ds with
  | nil =>
      intro m
      simp [newDiffSets, entryExtend_nil]
  | cons d rest ih =>
      intro m
      rw [List.foldl_cons, diffMapStep]
      by_cases h : d.version ∈ m.map (fun e => e.version)
      · rw [if_pos h, ih]
        have hver : (m.map (occupiedUpdate d)).map (fun e => e.version)
            = m.map (fun e => e.version) := by
          rw [List.map_map]
          apply List.map_congr_left
          intro e _
          exact occupiedUpdate_version d e
        have hmap : (m.map (occupiedUpdate d)).map (fun e => entryExtend e rest)
            = m.map (fun e => entryExtend e (d :: rest)) := by
          rw [List.map_map]
          apply List.map_congr_left
          intro e _
          exact entryExtend_occupiedUpdate d rest e
        rw [hver, hmap, newDiffSets, if_pos h]
      · rw [if_neg h, ih]
        have hmapm : m.map (fun e => entryExtend e rest)
            = m.map (fun e => entryExtend e (d :: rest)) := by
          apply List.map_congr_left
          intro e he
          apply entryExtend_notOccupied
          intro hc
          exact h (hc ▸ List.mem_map_of_mem (fun e => e.version) he)
        have hseen : newDiffSets ((m ++ [(⟨d.version, d.original_version,
            d.archive.foldl fullMapInsert []⟩ : AssetPathsDiffMapEntry)]).map
              (fun e => e.version)) rest =
            newDiffSets (d.version :: m.map (fun e => e.version)) rest := by
          apply newDiffSets_congr
          intro x
          simp only [List.map_append, List.map_cons, List.map_nil, List.mem_append,
            List.mem_cons, List.not_mem_nil, or_false]
          exact Or.comm
        rw [List.map_append, hseen, hmapm]
        rw [show newDiffSets (m.map (fun e => e.version)) (d :: rest) =
          ⟨d.version, d.original_version,
            firstWinsByHash []
              (d.archive ++ (rest.filter (fun x => x.version == d.version)).flatMap
                (fun x => x.archive))⟩
          :: newDiffSets (d.version :: m.map (fun e => e.version)) rest
          from by rw [newDiffSets, if_neg h]]
        rw [List.map_cons, List.map_cons, List.map_nil, List.append_assoc,
          List.singleton_append]
        congr 2
        exact entryExtend_new d rest

theorem diffMapFold_eq_newDiffSets (ds : List AssetPathDiff) :
    diffMapFold ds = (newDiffSets [] ds).map AssetPathDiff.toEntry := by
  rw [diffMapFold, diffFold_spec]
  rfl

/-! ## Per-device resolution (`WafuriAPIClient::get_asset_path`, client.rs 186-218)

When the configured device type is `All`, the client resolves android and ios
concurrently (`try_join!`); a failure of either fails the whole call, so only
the both-successful case is modelled, with the two optional per-platform
manifests combined as in the source's four-way `match`. -/

/-- All possible values of `get_asset_path` for device type `All` once both
per-platform calls returned `Ok`, as a relation because the merge reads
`HashMap`s whose iteration order is arbitrary. -/
inductive GetAssetPathAllOutcome :
    Option AssetPaths → Option AssetPaths → Option AssetPaths → Prop where
  | noneNone : GetAssetPathAllOutcome none none none
  | noneSome (i : AssetPaths) : GetAssetPathAllOutcome none (some i) (some i)
  | someNone (a : AssetPaths) : GetAssetPathAllOutcome (some a) none (some a)
  | someSome (a i r : AssetPaths) : ExtendOutcome a i r →
      GetAssetPathAllOutcome (some a) (some i) (some r)

/-- C1: when both platform resolutions succeed with manifests, the result is a
merged manifest whose full list is the first-wins hash union (up to order) and
whose top-level metadata is platform A's (android's). -/
theorem getAssetPathAll_merges (a b : AssetPaths) (rr : Option AssetPaths)
    (h : GetAssetPathAllOutcome (some a) (some b) rr) :
    ∃ r, rr = some r ∧
      r.info = a.info ∧
      r.full.version = a.full.version ∧
      r.full.archive.Perm (firstWinsByHash [] (a.full.archive ++ b.full.archive)) := by
  cases h with
  | someSome a b r hext =>
      exact ⟨r, rfl, hext.1, hext.2.1, fullMapFold_eq_firstWins _ ▸ hext.2.2.2.1⟩

/-- Sample archives and manifests used to instantiate the merge theorems. -/
def arcX : AssetPathArchive :=
  ⟨"https://host/patch/gf/upload_assets/x.bin", 10, "h1"⟩

def arcY : AssetPathArchive :=
  ⟨"https://host/patch/gf/upload_assets/y.bin", 20, "h2"⟩

def infoA : AssetPathsInfo := ⟨"2.0", "2.0", "2.0", false, "1.0"⟩

def infoB : AssetPathsInfo := ⟨"2.0", "2.0", "2.0", true, "1.5"⟩

def mergeA : AssetPaths := ⟨infoA, ⟨"2.0", [arcX]⟩, [⟨"2.1", "2.0", [arcX]⟩], "avhA"⟩

def mergeB : AssetPaths := ⟨infoB, ⟨"2.5", [arcY]⟩, [⟨"2.1", "1.9", [arcY]⟩], "avhB"⟩

/-- C1 witness: the merge theorem instantiated at concrete manifests, the
hypothesis discharged by the canonical merge outcome. -/
theorem getAssetPathAll_merges_witness :
    ∃ r, some (mergeA.extend mergeB) = some r ∧
      r.info = mergeA.info ∧
      r.full.version = mergeA.full.version ∧
      r.full.archive.Perm
        (firstWinsByHash [] (mergeA.full.archive ++ mergeB.full.archive)) :=
  getAssetPathAll_merges mergeA mergeB _
    (GetAssetPathAllOutcome.someSome _ _ _ (extend_is_outcome mergeA mergeB))

def cxA : AssetPaths := ⟨infoA, ⟨"2.0", [arcX]⟩, [], "avhA"⟩

def cxB : AssetPaths := ⟨infoB, ⟨"2.5", [arcY]⟩, [], "avhB"⟩

/-- A possible result of merging `cxA` with `cxB` in which the two full-archive
entries appear in the opposite of discovery order. -/
def cxR : AssetPaths := ⟨infoA, ⟨"2.0", [arcY, arcX]⟩, [], "avhA"⟩

/-- C1 counterexample: the code gives no ordering guarantee on the merged full
list (it is read out of a `HashMap`), so a possible outcome of the merge lists
platform B's entry before platform A's, contradicting the claimed
discovery-order layout. -/
theorem c1_order_counterexample :
    GetAssetPathAllOutcome (some cxA) (some cxB) (some cxR) ∧
      cxR.full.archive ≠ firstWinsByHash [] (cxA.full.archive ++ cxB.full.archive) := by
  constructor
  · exact GetAssetPathAllOutcome.someSome _ _ _
      ⟨rfl, rfl, rfl, by decide, [], by decide, List.Forall₂.nil⟩
  · decide

/-- C2 (amended): diff sets are unioned keyed by the diff version alone; each
produced diff set corresponds (up to the arbitrary map orders) to one entry of
`newDiffSets`: first occurrence's `original_version`, archives hash-unioned
first-wins across every input diff sharing the version. -/
theorem extend_diff_union_by_version (a b r : AssetPaths) (h : ExtendOutcome a b r) :
    ∃ gs : List AssetPathDiff, gs.Perm (newDiffSets [] (a.diff ++ b.diff)) ∧
      List.Forall₂ (fun g d => d.version = g.version ∧
        d.original_version = g.original_version ∧ d.archive.Perm g.archive) gs r.diff := by
  obtain ⟨_, _, _, _, es, hperm, hall⟩ := h
  refine ⟨es.map AssetPathsDiffMapEntry.toDiff, ?_, ?_⟩
  · have hp := hperm.map AssetPathsDiffMapEntry.toDiff
    rw [diffMapFold_eq_newDiffSets, List.map_map] at hp
    have hid : AssetPathsDiffMapEntry.toDiff ∘ AssetPathDiff.toEntry = id := rfl
    rw [hid, List.map_id] at hp
    exact hp
  · rw [List.forall₂_map_left_iff]
    exact hall

/-- C2 witness: the diff-union theorem instantiated at concrete manifests. -/
theorem extend_diff_union_by_version_witness :
    ∃ gs : List AssetPathDiff, gs.Perm (newDiffSets [] (mergeA.diff ++ mergeB.diff)) ∧
      List.Forall₂ (fun g d => d.version = g.version ∧
        d.original_version = g.original_version ∧ d.archive.Perm g.archive) gs
        (mergeA.extend mergeB).diff :=
  extend_diff_union_by_version mergeA mergeB _ (extend_is_outcome mergeA mergeB)

/-- C2 counterexample: `mergeA` and `mergeB` each carry one diff set with the
same diff version `2.1` but different source versions (`2.0` vs `1.9`); the
merge still unions them into a single diff set (keeping the first source
version), so agreement on the (version, source version) pair is not required
for merging. -/
theorem c2_pair_key_counterexample :
    (mergeA.diff.map fun d => (d.version, d.original_version)) = [("2.1", "2.0")] ∧
    (mergeB.diff.map fun d => (d.version, d.original_version)) = [("2.1", "1.9")] ∧
    ∃ r, ExtendOutcome mergeA mergeB r ∧
      r.diff = [⟨"2.1", "2.0", [arcX, arcY]⟩] := by
  refine ⟨by decide, by decide, mergeA.extend mergeB, extend_is_outcome mergeA mergeB, ?_⟩
  decide

/-! ## The fetch cache and asset-info resolution
(`starview_core/src/cache/models.rs`, `starview_core/src/fetch/fetcher.rs`)

`Fetcher::get_asset_info` (fetcher.rs lines 80-125) either short-circuits to
the cached manifest and version info, or fetches both from the server,
stamps the manifest's `client_asset_version` with its `target_asset_version`,
updates the cache and persists it.  The two concurrent server calls are
modelled by their joined result, passed in as `remote`; the cache write is
modelled as succeeding (its failure path is not the subject of any claim). -/

/-- Errors surfaced by the embedded fetch operations
(`starview_net::Error::InvalidRequest`). -/
inductive NetError where
  | invalidRequest (msg : String)
deriving DecidableEq, Repr

/-- Persistent fetch cache record, from `starview_core/src/cache/models.rs`,
with `version_info` carried as the list the fetcher stores into it
(fetcher.rs line 112). -/
structure FetchCache where
  device_type : DeviceType
  udid : String
  version_info : List AssetVersionInfo
  asset_paths : Option AssetPaths
  downloaded_asset_hashes : Finset String
deriving DecidableEq

/-- Progress states of asset-info resolution, from
`starview_core/src/fetch/state.rs` (`FetchAssetInfoState`). -/
inductive FetchAssetInfoState where
  | getAssetVersion
  | getAssetInfo
  | finish
deriving DecidableEq, Repr

/-- The fresh-fetch path of `get_asset_info`: the joined remote result is
unpacked; a missing manifest is an invalid-request error; otherwise the
manifest is stamped as synced and the cache fields are updated. -/
def fetchFresh (cache : FetchCache) (clientDeviceType : DeviceType)
    (remote : Except NetError (Option AssetPaths × List AssetVersionInfo)) :
    Except NetError (FetchCache × List AssetVersionInfo × AssetPaths) ×
      List FetchAssetInfoState :=
  match remote with
  | Except.error e => (Except.error e, [FetchAssetInfoState.getAssetInfo])
  | Except.ok (none, _) =>
      (Except.error (NetError.invalidRequest
          "could not get asset paths or asset version info"),
        [FetchAssetInfoState.getAssetInfo])
  | Except.ok (some ap, vi) =>
      let ap' := { ap with
        info := { ap.info with client_asset_version := ap.info.target_asset_version } }
      let cache' := { cache with
        asset_paths := some ap'
        version_info := vi
        device_type := clientDeviceType }
      (Except.ok (cache', vi, ap'),
        [FetchAssetInfoState.getAssetInfo, FetchAssetInfoState.finish])

/-- `Fetcher::get_asset_info` (fetcher.rs lines 80-125): short-circuit to the
cache when it holds a manifest whose recorded client version equals the
requested version and the cached device type equals the client's; otherwise
fetch fresh.  Returns the result together with the emitted progress states. -/
def get_asset_info (cache : FetchCache) (clientDeviceType : DeviceType)
    (asset_version : String)
    (remote : Except NetError (Option AssetPaths × List AssetVersionInfo)) :
    Except NetError (FetchCache × List AssetVersionInfo × AssetPaths) ×
      List FetchAssetInfoState :=
  match cache.asset_paths with
  | some asset_paths =>
      if asset_paths.info.client_asset_version = asset_version ∧
          cache.device_type = clientDeviceType then
        (Except.ok (cache, cache.version_info, asset_paths),
          [FetchAssetInfoState.finish])
      else fetchFresh cache clientDeviceType remote
  | none => fetchFresh cache clientDeviceType remote

theorem fetchFresh_events (cache : FetchCache) (dt : DeviceType)
    (remote : Except NetError (Option AssetPaths × List AssetVersionInfo)) :
    FetchAssetInfoState.getAssetInfo ∈ (fetchFresh cache dt remote).2 ∧
      (fetchFresh cache dt remote).2 ≠ [FetchAssetInfoState.finish] := by
  match remote with
  | Except.error e => exact ⟨by simp [fetchFresh], by simp [fetchFresh]⟩
  | Except.ok (none, vi) => exact ⟨by simp [fetchFresh], by simp [fetchFresh]⟩
  | Except.ok (some ap, vi) => exact ⟨by simp [fetchFresh], by simp [fetchFresh]⟩

/-- C3: resolution short-circuits to the cached manifest and version info
exactly when the cache holds a manifest whose recorded client version equals
the requested version and the cached device variant equals the configured one;
any cache whose device variant differs goes down the fresh-fetch path, whose
emitted states and results never come from the cached manifest. -/
theorem get_asset_info_cache_validity (cache : FetchCache) (dt : DeviceType)
    (v : String)
    (remote : Except NetError (Option AssetPaths × List AssetVersionInfo)) :
    (∀ ap, cache.asset_paths = some ap → ap.info.client_asset_version = v →
      cache.device_type = dt →
      get_asset_info cache dt v remote =
        (Except.ok (cache, cache.version_info, ap), [FetchAssetInfoState.finish])) ∧
    ((¬ ∃ ap, cache.asset_paths = some ap ∧ ap.info.client_asset_version = v ∧
        cache.device_type = dt) →
      get_asset_info cache dt v remote = fetchFresh cache dt remote ∧
        FetchAssetInfoState.getAssetInfo ∈ (get_asset_info cache dt v remote).2 ∧
        (get_asset_info cache dt v remote).2 ≠ [FetchAssetInfoState.finish]) ∧
    (cache.device_type ≠ dt →
      get_asset_info cache dt v remote = fetchFresh cache dt remote) := by
  refine ⟨?_, ?_, ?_⟩
  · intro ap hap hv hdt
    simp only [get_asset_info, hap]
    rw [if_pos ⟨hv, hdt⟩]
  · intro hn
    have heq : get_asset_info cache dt v remote = fetchFresh cache dt remote := by
      match hap : cache.asset_paths with
      | none => simp only [get_asset_info, hap]
      | some ap =>
          simp only [get_asset_info, hap]
          rw [if_neg]
          intro ⟨hv, hdt⟩
          exact hn ⟨ap, hap, hv, hdt⟩
    exact ⟨heq, heq ▸ (fetchFresh_events cache dt remote).1,
      heq ▸ (fetchFresh_events cache dt remote).2⟩
  · intro hdt
    match hap : cache.asset_paths with
    | none => simp only [get_asset_info, hap]
    | some ap =>
        simp only [get_asset_info, hap]
        rw [if_neg]
        intro ⟨_, hdt'⟩
        exact hdt hdt'

/-- A concrete cache resolved for android, holding a manifest for version 2.0. -/
def sampleCache : FetchCache :=
  ⟨DeviceType.android, "UDID", [⟨"https://h", "https://h/files.csv", 100, 0⟩],
    some mergeA, ∅⟩

/-- A concrete joined remote result. -/
def sampleRemote : Except NetError (Option AssetPaths × List AssetVersionInfo) :=
  Except.ok (some mergeB, [⟨"https://h2", "https://h2/files.csv", 50, 0⟩])

/-- C3 witness: with the configured variant changed to ios, the android cache
is bypassed even though the version matches; with android configured and the
version matching, the resolution short-circuits to the cache. -/
theorem get_asset_info_cache_validity_witness :
    get_asset_info sampleCache DeviceType.ios "2.0" sampleRemote =
      fetchFresh sampleCache DeviceType.ios sampleRemote ∧
    get_asset_info sampleCache DeviceType.android "2.0" sampleRemote =
      (Except.ok (sampleCache, sampleCache.version_info, mergeA),
        [FetchAssetInfoState.finish]) :=
  ⟨(get_asset_info_cache_validity sampleCache DeviceType.ios "2.0" sampleRemote).2.2
      (by decide),
    (get_asset_info_cache_validity sampleCache DeviceType.android "2.0"
        sampleRemote).1 mergeA rfl (by decide) rfl⟩

/-! ## Worklist construction and hash-set reconciliation
(`Fetcher::insert_url_if_not_downloaded`, `Fetcher::download_assets`,
fetcher.rs lines 148-272)

URL parsing is performed by the external `url` crate, so it is passed in as a
function `parse`; the `HashMap<Url, String>` is embedded as a function map
(its only uses are keyed insert and keyed remove). -/

/-- A parsed absolute URL (opaque wrapper; the claims only compare URLs). -/
structure Url where
  raw : String
deriving DecidableEq, Repr

/-- The `url_hash_map : HashMap<Url, String>` of `download_assets`. -/
def UrlMap : Type := Url → Option String

/-- Accumulator of the worklist pass in `download_assets` (fetcher.rs lines
209-233). -/
structure WorklistState where
  to_download_urls : List Url
  url_hash_map : UrlMap
  new_downloaded_asset_hashes : Finset String

/-- Initial worklist accumulator (`Vec::new`, `HashMap::new`, `HashSet::new`). -/
def emptyWorklist : WorklistState := ⟨[], fun _ => none, ∅⟩

/-- `Fetcher::insert_url_if_not_downloaded` (fetcher.rs lines 155-172): a hash
already downloaded is accumulated into the next hash set and contributes zero
bytes; otherwise the location is parsed (`none` models `url::ParseError`), the
URL is recorded in the map and the worklist, and the declared size is the byte
contribution. -/
def insert_url_if_not_downloaded (parse : String → Option Url)
    (archive : AssetPathArchive) (downloaded_asset_hashes : Finset String)
    (st : WorklistState) : Option (WorklistState × Nat) :=
  if archive.sha256 ∉ downloaded_asset_hashes then
    match parse archive.location with
    | none => none
    | some url => some
        ({ st with
            to_download_urls := st.to_download_urls ++ [url]
            url_hash_map := fun u =>
              if u = url then some archive.sha256 else st.url_hash_map u },
          archive.size)
  else
    some ({ st with
        new_downloaded_asset_hashes :=
          insert archive.sha256 st.new_downloaded_asset_hashes }, 0)

/-- The worklist pass of `download_assets` (fetcher.rs lines 214-233): fold
`insert_url_if_not_downloaded` over the traversal list, accumulating
`total_bytes`; a parse failure aborts the pass (the `?` operator). -/
def buildWorklist (parse : String → Option Url) (downloaded : Finset String) :
    List AssetPathArchive → WorklistState → Nat → Option (WorklistState × Nat)
  | [], st, total => some (st, total)
  | a :: rest, st, total =>
      match insert_url_if_not_downloaded parse a downloaded st with
      | none => none
      | some (st', bytes) => buildWorklist parse downloaded rest st' (total + bytes)

/-- The traversal list of a download pass: the full list, then every diff
set's list (fetcher.rs lines 214-233). -/
def passArchives (ap : AssetPaths) : List AssetPathArchive :=
  ap.full.archive ++ ap.diff.flatMap (fun d => d.archive)

/-- The (url, hash) associations recorded during a pass, in traversal order:
one per non-skipped entry whose location parses. -/
def worklistPairs (parse : String → Option Url) (downloaded : Finset String)
    (entries : List AssetPathArchive) : List (Url × String) :=
  entries.filterMap (fun a =>
    if a.sha256 ∈ downloaded then none
    else (parse a.location).map (fun u => (u, a.sha256)))

/-- Keyed overwrite of a function map by a list of associations, later pairs
winning. -/
def assocUpd (base : UrlMap) (ps : List (Url × String)) : UrlMap :=
  ps.foldl (fun g p => fun u => if u = p.1 then some p.2 else g u) base

/-- The hashes of the entries skipped as already downloaded. -/
def skippedHashes (entries : List AssetPathArchive) (downloaded : Finset String) :
    Finset String :=
  ((entries.filter (fun a => decide (a.sha256 ∈ downloaded))).map
    (fun a => a.sha256)).toFinset

theorem buildWorklist_spec (parse : String → Option Url) (downloaded : Finset String) :
    ∀ (entries : List AssetPathArchive) (st : WorklistState) (total : Nat),
      (∀ a ∈ entries, a.sha256 ∉ downloaded → (parse a.location).isSome) →
      buildWorklist parse downloaded entries st total =
        some
          (⟨st.to_download_urls ++ entries.filterMap (fun a =>
              if a.sha256 ∈ downloaded then none else parse a.location),
            assocUpd st.url_hash_map (worklistPairs parse downloaded entries),
            st.new_downloaded_asset_hashes ∪ skippedHashes entries downloaded⟩,
          total + ((entries.filter (fun a => decide (a.sha256 ∉ downloaded))).map
            (fun a => a.size)).sum) := by
  intro entries
  induction entries with
  | nil =>
      intro st total _
      simp [buildWorklist, worklistPairs, assocUpd, skippedHashes]
  | cons a rest ih =>
      intro st total hp
      rw [buildWorklist, insert_url_if_not_downloaded]
      by_cases hm : a.sha256 ∈ downloaded
      · rw [if_neg (fun hc => hc hm)]
        show buildWorklist parse downloaded rest
          { st with new_downloaded_asset_hashes :=
              insert a.sha256 st.new_downloaded_asset_hashes } (total + 0) = _
        rw [ih _ _ (fun x hx => hp x (List.mem_cons_of_mem a hx))]
        have h1 : (a :: rest).filterMap (fun a =>
            if a.sha256 ∈ downloaded then none else parse a.location) =
            rest.filterMap (fun a =>
              if a.sha256 ∈ downloaded then none else parse a.location) := by
          rw [List.filterMap_cons, if_pos hm]
        have h2 : worklistPairs parse downloaded (a :: rest) =
            worklistPairs parse downloaded rest := by
          rw [worklistPairs, List.filterMap_cons, if_pos hm]
          rfl
        have h3 : skippedHashes (a :: rest) downloaded =
            insert a.sha256 (skippedHashes rest downloaded) := by
          rw [skippedHashes, skippedHashes, List.filter_cons, if_pos (by simpa using hm)]
          simp
        have h4 : (a :: rest).filter (fun a => decide (a.sha256 ∉ downloaded)) =
            rest.filter (fun a => decide (a.sha256 ∉ downloaded)) := by
          rw [List.filter_cons, if_neg (by simpa using hm)]
        rw [h1, h2, h3, h4, Finset.union_insert, Finset.insert_union]
        rfl
      · rw [if_pos hm]
        have hps : (parse a.location).isSome := hp a (List.mem_cons_self a rest) hm
        match hu : parse a.location with
        | none => rw [hu] at hps; simp at hps
        | some url =>
            show buildWorklist parse downloaded rest
              { st with
                to_download_urls := st.to_download_urls ++ [url]
                url_hash_map := fun u =>
                  if u = url then some a.sha256 else st.url_hash_map u }
              (total + a.size) = _
            rw [ih _ _ (fun x hx => hp x (List.mem_cons_of_mem a hx))]
            have h1 : (a :: rest).filterMap (fun a =>
                if a.sha256 ∈ downloaded then none else parse a.location) =
                url :: rest.filterMap (fun a =>
                  if a.sha256 ∈ downloaded then none else parse a.location) := by
              rw [List.filterMap_cons, if_neg hm, hu]
            have h2 : worklistPairs parse downloaded (a :: rest) =
                (url, a.sha256) :: worklistPairs parse downloaded rest := by
              rw [worklistPairs, List.filterMap_cons, if_neg hm, hu]
              rfl
            have h3 : skippedHashes (a :: rest) downloaded =
                skippedHashes rest downloaded := by
              rw [skippedHashes, skippedHashes, List.filter_cons,
                if_neg (by simpa using hm)]
            have h4 : (a :: rest).filter (fun a => decide (a.sha256 ∉ downloaded)) =
                a :: rest.filter (fun a => decide (a.sha256 ∉ downloaded)) := by
              rw [List.filter_cons, if_pos (by simpa using hm)]
            rw [h1, h2, h3, h4]
            simp only [List.map_cons, List.sum_cons, List.append_assoc,
              List.singleton_append, assocUpd, List.foldl_cons]
            rw [Nat.add_assoc]

/-- The reconciliation loop of `download_assets` (fetcher.rs lines 258-263):
each URL the Downloader reports as downloaded is removed from the url-hash map
and, when present, its hash is inserted into the next hash set. -/
def reconcile (m : UrlMap) (acc : Finset String) : List Url → Finset String
  | [] => acc
  | u :: rest =>
      match m u with
      | some h => reconcile (fun x => if x = u then none else m x) (insert h acc) rest
      | none => reconcile m acc rest

/-- The tail of `download_assets` (fetcher.rs lines 256-267): the cache's
downloaded-hash set is replaced by the reconciled set (the previous set does
not contribute). -/
def downloadAssetsFinish (st : WorklistState) (downloaded_urls : List Url)
    (cache : FetchCache) : FetchCache :=
  { cache with downloaded_asset_hashes :=
      reconcile st.url_hash_map st.new_downloaded_asset_hashes downloaded_urls }

theorem reconcile_spec : ∀ (urls : List Url) (m : UrlMap) (acc : Finset String),
    reconcile m acc urls = acc ∪ (urls.filterMap m).toFinset := by
  intro urls
  induction urls with
  | nil => intro m acc; simp [reconcile]
  | cons u rest ih =>
      intro m acc
      rw [reconcile]
      rcases hm : m u with _ | h
      · show reconcile m acc rest = acc ∪ (List.filterMap m (u :: rest)).toFinset
        rw [ih, List.filterMap_cons_none hm]
      · show reconcile (fun x => if x = u then none else m x) (insert h acc) rest =
          acc ∪ (List.filterMap m (u :: rest)).toFinset
        rw [ih, List.filterMap_cons_some hm, List.toFinset_cons]
        apply Finset.ext
        intro x
        simp only [Finset.mem_union, Finset.mem_insert, List.mem_toFinset,
          List.mem_filterMap]
        constructor
        · rintro ((rfl | hacc) | ⟨u', hu', hmu'⟩)
          · exact Or.inr (Or.inl rfl)
          · exact Or.inl hacc
          · by_cases he : u' = u
            · rw [if_pos he] at hmu'
              exact absurd hmu' (by simp)
            · rw [if_neg he] at hmu'
              exact Or.inr (Or.inr ⟨u', hu', hmu'⟩)
        · rintro (hacc | rfl | ⟨u', hu', hmu'⟩)
          · exact Or.inl (Or.inr hacc)
          · exact Or.inl (Or.inl rfl)
          · by_cases he : u' = u
            · rw [he, hm] at hmu'
              exact Or.inl (Or.inl (Option.some_inj.mp hmu').symm)
            · exact Or.inr ⟨u', hu', by rw [if_neg he]; exact hmu'⟩

theorem assocUpd_eq_some :
    ∀ (ps : List (Url × String)) (base : UrlMap) (u : Url) (h : String),
      assocUpd base ps u = some h → (u, h) ∈ ps ∨ base u = some h := by
  intro ps
  induction ps with
  | nil => intro base u h hb; exact Or.inr hb
  | cons p rest ih =>
      intro base u h hb
      rcases ih (fun v => if v = p.1 then some p.2 else base v) u h hb with hmem | hbase
      · exact Or.inl (List.mem_cons_of_mem p hmem)
      · by_cases he : u = p.1
        · rw [if_pos he] at hbase
          have : p.2 = h := Option.some_inj.mp hbase
          exact Or.inl (by rw [show (u, h) = p from by rw [he, ← this]]; exact
            List.mem_cons_self p rest)
        · rw [if_neg he] at hbase
          exact Or.inr hbase

theorem assocUpd_some_of_mem :
    ∀ (ps : List (Url × String)) (base : UrlMap) (u : Url) (h : String),
      (∀ p ∈ ps, ∀ q ∈ ps, p.1 = q.1 → p.2 = q.2) →
      ((u, h) ∈ ps ∨ (base u = some h ∧ ∀ h', (u, h') ∉ ps)) →
      assocUpd base ps u = some h := by
  intro ps
  induction ps with
  | nil =>
      intro base u h _ hyp
      rcases hyp with hmem | ⟨hb, _⟩
      · exact absurd hmem (List.not_mem_nil _)
      · exact hb
  | cons p rest ih =>
      intro base u h hfn hyp
      have hfnr : ∀ p₁ ∈ rest, ∀ q ∈ rest, p₁.1 = q.1 → p₁.2 = q.2 :=
        fun p₁ h₁ q h₂ => hfn p₁ (List.mem_cons_of_mem p h₁) q (List.mem_cons_of_mem p h₂)
      show assocUpd (fun v => if v = p.1 then some p.2 else base v) rest u = some h
      rcases hyp with hmem | ⟨hb, hnot⟩
      · rcases List.mem_cons.mp hmem with heq | hmem'
        · have hp1 : u = p.1 := congrArg Prod.fst heq
          have hp2 : h = p.2 := congrArg Prod.snd heq
          by_cases hin : ∃ h', (u, h') ∈ rest
          · obtain ⟨h', hh'⟩ := hin
            have hval : p.2 = h' := hfn p (List.mem_cons_self p rest) (u, h')
              (List.mem_cons_of_mem p hh') hp1.symm
            have hh : h' = h := by rw [← hval, hp2]
            exact ih _ u h hfnr (Or.inl (hh ▸ hh'))
          · apply ih _ u h hfnr
            refine Or.inr ⟨?_, fun h' hc => hin ⟨h', hc⟩⟩
            rw [if_pos hp1, hp2]
        · exact ih _ u h hfnr (Or.inl hmem')
      · have hne : u ≠ p.1 := by
          intro hc
          exact hnot p.2 (by rw [show (u, p.2) = p from Prod.ext hc rfl]; exact
            List.mem_cons_self p rest)
        apply ih _ u h hfnr
        refine Or.inr ⟨by rw [if_neg hne]; exact hb,
          fun h' hc => hnot h' (List.mem_cons_of_mem p hc)⟩

/-- C4: over a full download pass (full list plus every diff set's list),
provided every non-skipped location parses, the pass succeeds and: the worklist
is exactly the parsed URLs of the entries whose hash is not in the pre-pass
cache set (in traversal order, so a skipped entry contributes nothing to it);
the next hash set starts as exactly the hashes of the skipped entries; and the
announced total is exactly the sum of the non-skipped entries' declared sizes.
Every worklist URL comes from some non-skipped entry. -/
theorem download_assets_dedup (parse : String → Option Url)
    (downloaded : Finset String) (ap : AssetPaths)
    (hp : ∀ a ∈ passArchives ap, a.sha256 ∉ downloaded → (parse a.location).isSome) :
    buildWorklist parse downloaded (passArchives ap) emptyWorklist 0 =
      some
        (⟨(passArchives ap).filterMap (fun a =>
            if a.sha256 ∈ downloaded then none else parse a.location),
          assocUpd (fun _ => none) (worklistPairs parse downloaded (passArchives ap)),
          skippedHashes (passArchives ap) downloaded⟩,
        ((passArchives ap).filter (fun a => decide (a.sha256 ∉ downloaded))).map
          (fun a => a.size) |>.sum) ∧
    ∀ url ∈ (passArchives ap).filterMap (fun a =>
        if a.sha256 ∈ downloaded then none else parse a.location),
      ∃ a ∈ passArchives ap, a.sha256 ∉ downloaded ∧ parse a.location = some url := by
  constructor
  · have h := buildWorklist_spec parse downloaded (passArchives ap) emptyWorklist 0 hp
    simpa [emptyWorklist] using h
  · intro url hurl
    obtain ⟨a, ha, hfa⟩ := List.mem_filterMap.mp hurl
    by_cases hm : a.sha256 ∈ downloaded
    · rw [if_pos hm] at hfa
      exact absurd hfa (by simp)
    · rw [if_neg hm] at hfa
      exact ⟨a, ha, hm, hfa⟩

/-- Everything in the sample embedding parses as a URL (the sample locations
are absolute URLs; the `url` crate accepts them). -/
def parse0 : String → Option Url := fun s => some ⟨s⟩

/-- A sample pre-pass cache hash set containing `arcX`'s hash. -/
def dl0 : Finset String := {"h1"}

/-- A sample manifest whose pass traverses `arcX` (skipped) then `arcY`. -/
def apW : AssetPaths := ⟨infoA, ⟨"2.0", [arcX]⟩, [⟨"2.1", "2.0", [arcY]⟩], "avh"⟩

/-- C4 witness: the dedup theorem at a concrete pass where `arcX` is already
downloaded and `arcY` is not. -/
theorem download_assets_dedup_witness :
    buildWorklist parse0 dl0 (passArchives apW) emptyWorklist 0 =
      some
        (⟨(passArchives apW).filterMap (fun a =>
            if a.sha256 ∈ dl0 then none else parse0 a.location),
          assocUpd (fun _ => none) (worklistPairs parse0 dl0 (passArchives apW)),
          skippedHashes (passArchives apW) dl0⟩,
        ((passArchives apW).filter (fun a => decide (a.sha256 ∉ dl0))).map
          (fun a => a.size) |>.sum) ∧
    ∀ url ∈ (passArchives apW).filterMap (fun a =>
        if a.sha256 ∈ dl0 then none else parse0 a.location),
      ∃ a ∈ passArchives apW, a.sha256 ∉ dl0 ∧ parse0 a.location = some url :=
  download_assets_dedup parse0 dl0 apW (by decide)

/-- C5: after the pass, the cache's hash set is replaced by exactly the union
of the skipped hashes and the hashes of the worklist entries whose URL the
Downloader reports as downloaded; a hash that was neither skipped nor carried
by any downloaded URL — in particular the hash of an entry that exhausted its
retries, and any stale hash from the previous set — is absent from the new
set.  The hypothesis `hfn` states that the pass does not associate the same
URL with two different hashes. -/
theorem download_assets_hash_replacement (parse : String → Option Url)
    (downloaded : Finset String) (ap : AssetPaths) (dls : List Url)
    (cache : FetchCache)
    (hp : ∀ a ∈ passArchives ap, a.sha256 ∉ downloaded → (parse a.location).isSome)
    (hfn : ∀ p ∈ worklistPairs parse downloaded (passArchives ap),
      ∀ q ∈ worklistPairs parse downloaded (passArchives ap),
        p.1 = q.1 → p.2 = q.2) :
    ∃ st total,
      buildWorklist parse downloaded (passArchives ap) emptyWorklist 0 =
        some (st, total) ∧
      (downloadAssetsFinish st dls cache).downloaded_asset_hashes =
        skippedHashes (passArchives ap) downloaded ∪
          (((worklistPairs parse downloaded (passArchives ap)).filter
            (fun p => decide (p.1 ∈ dls))).map Prod.snd).toFinset ∧
      ∀ h, h ∉ skippedHashes (passArchives ap) downloaded →
        (∀ p ∈ worklistPairs parse downloaded (passArchives ap),
          p.2 = h → p.1 ∉ dls) →
        h ∉ (downloadAssetsFinish st dls cache).downloaded_asset_hashes := by
  have hb := buildWorklist_spec parse downloaded (passArchives ap) emptyWorklist 0 hp
  refine ⟨_, _, hb, ?_, ?_⟩
  · show reconcile
      (assocUpd emptyWorklist.url_hash_map (worklistPairs parse downloaded (passArchives ap)))
      (emptyWorklist.new_downloaded_asset_hashes ∪ skippedHashes (passArchives ap) downloaded)
      dls = _
    rw [reconcile_spec]
    have hempty : emptyWorklist.new_downloaded_asset_hashes ∪
        skippedHashes (passArchives ap) downloaded =
        skippedHashes (passArchives ap) downloaded := by
      show ∅ ∪ _ = _
      exact Finset.empty_union _
    rw [hempty]
    congr 1
    apply Finset.ext
    intro x
    simp only [List.mem_toFinset, List.mem_filterMap, List.mem_map, List.mem_filter,
      decide_eq_true_eq]
    constructor
    · rintro ⟨u, hu, hmu⟩
      rcases assocUpd_eq_some _ _ _ _ hmu with hmem | hbase
      · exact ⟨(u, x), ⟨hmem, hu⟩, rfl⟩
      · exact absurd hbase (by simp [emptyWorklist])
    · rintro ⟨p, ⟨hmem, hdl⟩, rfl⟩
      refine ⟨p.1, hdl, ?_⟩
      exact assocUpd_some_of_mem _ _ _ _ hfn (Or.inl hmem)
  · intro h hskip hdl hinmem
    replace hinmem : h ∈ reconcile
      (assocUpd emptyWorklist.url_hash_map (worklistPairs parse downloaded (passArchives ap)))
      (emptyWorklist.new_downloaded_asset_hashes ∪ skippedHashes (passArchives ap) downloaded)
      dls := hinmem
    rw [reconcile_spec] at hinmem
    rcases Finset.mem_union.mp hinmem with hacc | hnew
    · rcases Finset.mem_union.mp hacc with hemp | hsk
      · exact absurd hemp (by simp [emptyWorklist])
      · exact hskip hsk
    · obtain ⟨u, hu, hmu⟩ := List.mem_filterMap.mp (List.mem_toFinset.mp hnew)
      rcases assocUpd_eq_some _ _ _ _ hmu with hmem | hbase
      · exact hdl (u, h) hmem rfl hu
      · exact absurd hbase (by simp [emptyWorklist])

/-- C5 witness: the replacement theorem at the concrete pass of `apW` with the
Downloader reporting `arcY`'s URL as downloaded. -/
theorem download_assets_hash_replacement_witness :
    ∃ st total,
      buildWorklist parse0 dl0 (passArchives apW) emptyWorklist 0 =
        some (st, total) ∧
      (downloadAssetsFinish st [⟨arcY.location⟩] sampleCache).downloaded_asset_hashes =
        skippedHashes (passArchives apW) dl0 ∪
          (((worklistPairs parse0 dl0 (passArchives apW)).filter
            (fun p => decide (p.1 ∈ [⟨arcY.location⟩]))).map Prod.snd).toFinset ∧
      ∀ h, h ∉ skippedHashes (passArchives apW) dl0 →
        (∀ p ∈ worklistPairs parse0 dl0 (passArchives apW),
          p.2 = h → p.1 ∉ [⟨arcY.location⟩]) →
        h ∉ (downloadAssetsFinish st [⟨arcY.location⟩]
          sampleCache).downloaded_asset_hashes :=
  download_assets_hash_replacement parse0 dl0 apW [⟨arcY.location⟩] sampleCache
    (by decide) (by decide)

/-! ## Destination derivation (`Downloader::get_url_out_path`, download.rs 56-72)

String prefix stripping is modelled over the character sequences of the
strings (Rust operates on the byte sequences; for the claims in question the
two views agree), because the Lean `String` API does not reduce inside the
kernel. -/

/-- Rust `str::starts_with` on strings. -/
def strStartsWith (s pre : String) : Bool := pre.data.isPrefixOf s.data

/-- Dropping the first `n` characters of a string. -/
def strDrop (s : String) (n : Nat) : String := ⟨s.data.drop n⟩

/-- Rust `str::strip_prefix`. -/
def stripPrefixOpt (s pre : String) : Option String :=
  if strStartsWith s pre then some (strDrop s pre.length) else none

/-- Rust `PathBuf::join` on string paths (no trailing separator on the base):
joining an absolute path replaces the base entirely. -/
def pathBufJoin (base p : String) : String :=
  if strStartsWith p "/" then p else base ++ "/" ++ p

/-- `Downloader::get_url_out_path` (download.rs lines 56-72), applied to the
URL path component: optionally strip the configured prefix, then make the
path relative by stripping a leading separator â falling back to the original
path â and join onto the output directory. -/
def get_url_out_path (urlPath : String) (out_dir : String)
    (stripPref : Option String) : String :=
  let stripped_url_path :=
    (stripPref.bind (fun pre => stripPrefixOpt urlPath pre)).getD urlPath
  let relative_url_path :=
    match stripPrefixOpt stripped_url_path "/" with
    | some stripped => stripped
    | none => urlPath
  pathBufJoin out_dir relative_url_path

/-- C10: case analysis of destination derivation.  The prefix and a leading
separator are both removed exactly when the URL path starts with the
configured prefix and the remainder itself begins with a separator; when the
remainder does not begin with a separator, the full original path (prefix
included) is joined instead; with no prefix configured, or a prefix the path
does not start with, only a leading separator of the original path is
removed. -/
theorem get_url_out_path_cases (urlPath out : String) (pre : Option String) :
    get_url_out_path urlPath out pre =
      match pre with
      | some p =>
          if strStartsWith urlPath p then
            (if strStartsWith (strDrop urlPath p.length) "/" then
              pathBufJoin out (strDrop (strDrop urlPath p.length) 1)
            else pathBufJoin out urlPath)
          else
            (if strStartsWith urlPath "/" then pathBufJoin out (strDrop urlPath 1)
            else pathBufJoin out urlPath)
      | none =>
          if strStartsWith urlPath "/" then pathBufJoin out (strDrop urlPath 1)
          else pathBufJoin out urlPath := by
  have hlen : ("/" : String).length = 1 := rfl
  cases pre with
  | none =>
      by_cases hs : strStartsWith urlPath "/" <;>
        simp [get_url_out_path, stripPrefixOpt, hs, hlen]
  | some p =>
      by_cases hp : strStartsWith urlPath p
      · by_cases hs : strStartsWith (strDrop urlPath p.length) "/" <;>
          simp [get_url_out_path, stripPrefixOpt, hp, hs, hlen]
      · by_cases hs : strStartsWith urlPath "/" <;>
          simp [get_url_out_path, stripPrefixOpt, hp, hs, hlen]

set_option maxRecDepth 4000 in
/-- The spec's concrete destination example: stripping
`/patch/gf/upload_assets` maps the sample location's path to `out/x/y.bin`. -/
theorem get_url_out_path_example :
    get_url_out_path "/patch/gf/upload_assets/x/y.bin" "out"
      (some "/patch/gf/upload_assets") = "out/x/y.bin" := by
  decide

/-! ## Retry schedule (`Downloader::download`, download.rs 100-129;
`DownloadConfig`, config.rs)

`Downloader::download` retries each unit with
`ExponentialBackoff::from_millis(retry_delay).take(retry_count)` and
`Retry::spawn`.  The `tokio_retry` crate is external; its `ExponentialBackoff`
iterator starts at `base` and multiplies the current value by `base` on every
step (factor 1, no max delay), saturating at `u64::MAX`; `Retry::spawn` runs
the action, and on failure consumes the next delay, sleeps, and retries until
the iterator is exhausted. -/

/-- `DownloadConfig` (config.rs lines 6-17), with the path and URL fields
elided (no claim concerns them). -/
structure DownloadConfig where
  retry_delay : Nat
  retry_count : Nat
  concurrency : Nat
deriving DecidableEq, Repr

/-- `DownloadConfig::default` (config.rs lines 26-37). -/
def DownloadConfig.default : DownloadConfig := ⟨500, 3, 5⟩

/-- One step of `ExponentialBackoff`: multiply the current delay by the base,
saturating at `u64::MAX` (checked_mul fallback). -/
def backoffNext (current base : Nat) : Nat :=
  if current * base < 2 ^ 64 then current * base else 2 ^ 64 - 1

/-- The delays yielded by `ExponentialBackoff::from_millis(base)` starting
from the given current value, `count` of them (the `take`). -/
def retryDelaysFrom (base : Nat) : Nat → Nat → List Nat
  | 0, _ => []
  | count + 1, current => current :: retryDelaysFrom base count (backoffNext current base)

/-- The delay schedule of `Downloader::download`:
`ExponentialBackoff::from_millis(base).take(count)`. -/
def retryDelays (base count : Nat) : List Nat :=
  retryDelaysFrom base count base

/-- Saturating power: the value of the backoff iterator's current field after
`k` multiplications, starting from 1. -/
def satPow (base : Nat) : Nat → Nat
  | 0 => 1
  | k + 1 => backoffNext (satPow base k) base

/-- Outcome of one transfer attempt as seen by `Downloader::download_file`
(download.rs lines 36-49): whether `request.send()` succeeded and whether
`error_for_status` accepted the response status. -/
structure AttemptOutcome where
  transportOk : Bool
  status2xx : Bool
deriving DecidableEq, Repr

/-- Whether a single `download_file` call returns `Ok` (and writes the file):
exactly when the transport succeeded and the status was a success status.
A transport failure propagates via `?`; a non-2xx status is turned into
`Error::InvalidRequest` by the `error_for_status` branch. -/
def downloadFileOk (o : AttemptOutcome) : Bool := o.transportOk && o.status2xx

/-- `Retry::spawn` with the given remaining delays: run the attempt; on
failure, consume the next delay and retry, or give up when the schedule is
exhausted.  Returns (success, attempts made, delays waited). -/
def retryRun (outcomes : Nat → Bool) : List Nat → Nat → Bool × Nat × List Nat
  | [], i => if outcomes i then (true, 1, []) else (false, 1, [])
  | d :: rest, i =>
      if outcomes i then (true, 1, [])
      else
        let r := retryRun outcomes rest (i + 1)
        (r.1, r.2.1 + 1, d :: r.2.2)

theorem retryRun_attempts_pos (outcomes : Nat → Bool) :
    ∀ (delays : List Nat) (i : Nat), 1 ≤ (retryRun outcomes delays i).2.1 := by
  intro delays i
  match delays with
  | [] =>
      rw [retryRun]
      by_cases h : outcomes i <;> simp [h]
  | d :: rest =>
      rw [retryRun]
      by_cases h : outcomes i
      · simp [h]
      · rw [if_neg h]
        show 1 ≤ (retryRun outcomes rest (i + 1)).2.1 + 1
        omega

theorem retryRun_spec (outcomes : Nat → Bool) :
    ∀ (delays : List Nat) (i : Nat),
      (retryRun outcomes delays i).2.1 ≤ 1 + delays.length ∧
      (retryRun outcomes delays i).2.2 =
        delays.take ((retryRun outcomes delays i).2.1 - 1) := by
  intro delays
  induction delays with
  | nil =>
      intro i
      rw [retryRun]
      by_cases h : outcomes i <;> simp [h]
  | cons d rest ih =>
      intro i
      rw [retryRun]
      by_cases h : outcomes i
      · simp [h]
      · rw [if_neg h]
        refine ⟨?_, ?_⟩
        · show (retryRun outcomes rest (i + 1)).2.1 + 1 ≤ 1 + (d :: rest).length
          have := (ih (i + 1)).1
          simp only [List.length_cons]
          omega
        · show d :: (retryRun outcomes rest (i + 1)).2.2 =
            (d :: rest).take ((retryRun outcomes rest (i + 1)).2.1 + 1 - 1)
          have h2 := (ih (i + 1)).2
          have h1 := retryRun_attempts_pos outcomes rest (i + 1)
          rw [Nat.add_sub_cancel]
          rw [show (retryRun outcomes rest (i + 1)).2.1 =
            ((retryRun outcomes rest (i + 1)).2.1 - 1) + 1 from by omega]
          rw [List.take_succ_cons, h2]

theorem retryDelaysFrom_eq (base : Nat) :
    ∀ (count j : Nat),
      retryDelaysFrom base count (satPow base (j + 1)) =
        (List.range count).map (fun k => satPow base (j + 1 + k)) := by
  intro count
  induction count with
  | zero => intro j; simp [retryDelaysFrom]
  | succ n ih =>
      intro j
      rw [retryDelaysFrom, List.range_succ_eq_map, List.map_cons, List.map_map]
      congr 1
      rw [show backoffNext (satPow base (j + 1)) base = satPow base (j + 1 + 1) from rfl]
      rw [ih (j + 1)]
      apply List.map_congr_left
      intro k _
      show satPow base (j + 1 + 1 + k) = satPow base (j + 1 + (k + 1))
      congr 1
      omega

theorem retryDelays_eq (base count : Nat) (hbase : base < 2 ^ 64) :
    retryDelays base count = (List.range count).map (fun k => satPow base (k + 1)) := by
  have h1 : satPow base 1 = base := by
    show backoffNext 1 base = base
    rw [backoffNext, if_pos (by omega)]
    omega
  rw [retryDelays]
  nth_rewrite 2 [← h1]
  have h2 := retryDelaysFrom_eq base count 0
  simp only [Nat.zero_add] at h2
  rw [h2]
  apply List.map_congr_left
  intro k _
  congr 1
  omega

/-- C6 (amended): each unit makes at most `1 + retry_count` attempts; the
waits performed are the leading delays of the schedule; the schedule's `k`-th
delay (1-indexed) is the base multiplied by itself `k` times â `base^k`
milliseconds, saturating at `u64::MAX` â not `base * 2^(k-1)`; and an attempt
counts as failed exactly when the transport failed or the status was not a
success status. -/
theorem downloader_retry_schedule (base count : Nat) (hbase : base < 2 ^ 64)
    (outcomes : Nat → AttemptOutcome) :
    (retryRun (fun i => downloadFileOk (outcomes i)) (retryDelays base count) 0).2.1 ≤
      1 + count ∧
    (retryRun (fun i => downloadFileOk (outcomes i)) (retryDelays base count) 0).2.2 =
      (retryDelays base count).take
        ((retryRun (fun i => downloadFileOk (outcomes i)) (retryDelays base count) 0).2.1
          - 1) ∧
    retryDelays base count = (List.range count).map (fun k => satPow base (k + 1)) ∧
    (∀ i, downloadFileOk (outcomes i) = false ↔
      ((outcomes i).transportOk = false ∨ (outcomes i).status2xx = false)) := by
  have hlen : (retryDelays base count).length = count := by
    rw [retryDelays_eq base count hbase]
    simp
  refine ⟨?_, (retryRun_spec _ _ _).2, retryDelays_eq base count hbase, ?_⟩
  · have := (retryRun_spec (fun i => downloadFileOk (outcomes i))
      (retryDelays base count) 0).1
    rw [hlen] at this
    exact this
  · intro i
    rw [downloadFileOk]
    constructor
    · intro h
      rcases Bool.and_eq_false_iff.mp h with h' | h'
      · exact Or.inl h'
      · exact Or.inr h'
    · intro h
      rcases h with h' | h' <;> simp [h']

/-- A unit whose every attempt fails on transport. -/
def alwaysTransportFail : Nat → AttemptOutcome := fun _ => ⟨false, true⟩

/-- C6 witness: the schedule theorem at the default configuration (base 500,
3 retries) with every attempt failing on transport. -/
theorem downloader_retry_schedule_witness :
    (retryRun (fun i => downloadFileOk (alwaysTransportFail i))
      (retryDelays DownloadConfig.default.retry_delay
        DownloadConfig.default.retry_count) 0).2.1 ≤
      1 + DownloadConfig.default.retry_count ∧
    (retryRun (fun i => downloadFileOk (alwaysTransportFail i))
      (retryDelays DownloadConfig.default.retry_delay
        DownloadConfig.default.retry_count) 0).2.2 =
      (retryDelays DownloadConfig.default.retry_delay
        DownloadConfig.default.retry_count).take
        ((retryRun (fun i => downloadFileOk (alwaysTransportFail i))
          (retryDelays DownloadConfig.default.retry_delay
            DownloadConfig.default.retry_count) 0).2.1 - 1) ∧
    retryDelays DownloadConfig.default.retry_delay DownloadConfig.default.retry_count =
      (List.range DownloadConfig.default.retry_count).map
        (fun k => satPow DownloadConfig.default.retry_delay (k + 1)) ∧
    (∀ i, downloadFileOk (alwaysTransportFail i) = false ↔
      ((alwaysTransportFail i).transportOk = false ∨
        (alwaysTransportFail i).status2xx = false)) :=
  downloader_retry_schedule DownloadConfig.default.retry_delay
    DownloadConfig.default.retry_count (by decide) alwaysTransportFail

/-- C6 counterexample: at the default configuration (base delay 500 ms,
3 retries) the actual delays are 500, 250000 and 125000000 ms — the base
multiplied by itself each retry — whereas the claimed formula
`base * 2^(k-1)` predicts 500, 1000 and 2000 ms. -/
theorem c6_delay_counterexample :
    retryDelays DownloadConfig.default.retry_delay DownloadConfig.default.retry_count =
      [500, 250000, 125000000] ∧
    retryDelays DownloadConfig.default.retry_delay DownloadConfig.default.retry_count ≠
      (List.range DownloadConfig.default.retry_count).map
        (fun k => DownloadConfig.default.retry_delay * 2 ^ k) := by
  constructor
  · decide
  · decide

/-! ## Failure isolation (`Downloader::download`, download.rs 79-145)

`download` runs every unit through a bounded-concurrency pool; each unit
resolves independently through its retry loop, the results are partitioned
into downloaded URLs and errors, and `DownloadState::Finish` is sent after the
`collect` of all units.  Completion order is unconstrained; the embedding
lists per-unit events in input order (every claim counted is
order-independent) and keeps the structural guarantee that `Finish` follows
all of them. -/

/-- `DownloadState` (download/state.rs) as sent by `Downloader::download`. -/
inductive DownloadState where
  | notStarted
  | downloadStart (count : Nat)
  | fileDownload
  | downloadError
  | finish
deriving DecidableEq, Repr

/-- Whether a unit's retry loop eventually succeeds. -/
def unitSucceeds (base retry_count : Nat) (f : Nat → Bool) : Bool :=
  (retryRun f (retryDelays base retry_count) 0).1

/-- `Downloader::download` over its units, each carrying its per-attempt
outcome: returns the downloaded URLs, the number of terminal per-unit errors,
and the emitted states. -/
def downloaderRun (base retry_count : Nat) (units : List (Url × (Nat → Bool))) :
    List Url × Nat × List DownloadState :=
  let results := units.map (fun u => (u.1, unitSucceeds base retry_count u.2))
  ((results.filter (fun r => r.2)).map Prod.fst,
   (results.filter (fun r => !r.2)).length,
   (DownloadState.downloadStart units.length ::
     results.map (fun r =>
       if r.2 then DownloadState.fileDownload else DownloadState.downloadError))
     ++ [DownloadState.finish])

theorem retryRun_allFail (f : Nat → Bool) (hf : ∀ i, f i = false) :
    ∀ (delays : List Nat) (i : Nat),
      retryRun f delays i = (false, 1 + delays.length, delays) := by
  intro delays
  induction delays with
  | nil =>
      intro i
      rw [retryRun, if_neg (by rw [hf i]; exact Bool.false_ne_true)]
      rfl
  | cons d rest ih =>
      intro i
      rw [retryRun, if_neg (by rw [hf i]; exact Bool.false_ne_true)]
      show (_, (retryRun f rest (i + 1)).2.1 + 1, d :: (retryRun f rest (i + 1)).2.2) = _
      rw [ih (i + 1)]
      show (false, 1 + rest.length + 1, d :: rest) = _
      rw [Prod.mk.injEq, Prod.mk.injEq]
      refine ⟨rfl, by simp; omega, rfl⟩

theorem retryDelays_length (base : Nat) :
    ∀ (count current : Nat), (retryDelaysFrom base count current).length = count := by
  intro count
  induction count with
  | zero => intro current; rfl
  | succ n ih =>
      intro current
      rw [retryDelaysFrom, List.length_cons, ih]

theorem filter_length_all_but_one {α : Type} (p : α → Bool) :
    ∀ (l : List α) (k : Nat) (hk : k < l.length),
      p (l.get ⟨k, hk⟩) = false →
      (∀ j (hj : j < l.length), j ≠ k → p (l.get ⟨j, hj⟩) = true) →
      (l.filter p).length = l.length - 1 ∧
      (l.filter (fun x => !(p x))).length = 1 ∧
      l.get ⟨k, hk⟩ ∉ l.filter p := by
  intro l
  induction l with
  | nil => intro k hk; exact absurd hk (by simp)
  | cons a rest ih =>
      intro k hk hf ht
      match k with
      | 0 =>
          have hrest : ∀ x ∈ rest, p x = true := by
            intro x hx
            obtain ⟨⟨j, hj⟩, hgj⟩ := List.mem_iff_get.mp hx
            have h2 := ht (j + 1) (Nat.succ_lt_succ hj) (by omega)
            exact hgj ▸ h2
          have hfa : p a = false := hf
          refine ⟨?_, ?_, ?_⟩
          · rw [List.filter_cons, if_neg (by simp [hfa]), List.filter_eq_self.mpr hrest]
            simp
          · rw [List.filter_cons, if_pos (by simp [hfa])]
            rw [List.filter_eq_nil_iff.mpr (by intro x hx; simp [hrest x hx])]
            rfl
          · intro hc
            have := (List.mem_filter.mp hc).2
            rw [show (a :: rest).get ⟨0, hk⟩ = a from rfl, hfa] at this
            exact Bool.false_ne_true this
      | k' + 1 =>
          have hk' : k' < rest.length := Nat.lt_of_succ_lt_succ hk
          have hpa : p a = true := ht 0 (Nat.zero_lt_succ _) (by omega)
          have hrec := ih k' hk' hf
            (fun j hj hjk => ht (j + 1) (Nat.succ_lt_succ hj) (by omega))
          refine ⟨?_, ?_, ?_⟩
          · rw [List.filter_cons, if_pos (by simp [hpa]), List.length_cons, hrec.1]
            have : 1 ≤ rest.length := Nat.lt_of_lt_of_le (Nat.zero_lt_succ k')
              (by omega)
            simp only [List.length_cons]
            omega
          · rw [List.filter_cons, if_neg (by simp [hpa]), hrec.2.1]
          · rw [List.filter_cons, if_pos (by simp [hpa])]
            intro hc
            rcases List.mem_cons.mp hc with heq | hmem
            · have hfalse : p ((a :: rest).get ⟨k' + 1, hk⟩) = false := hf
              rw [heq, hpa] at hfalse
              simp at hfalse
            · exact hrec.2.2 hmem

/-- C9: when exactly one unit always fails (and every other unit's URL differs
from the failing unit's), the Downloader reports exactly `N - 1` downloaded
locations and exactly one terminal error; the failing unit resolves only after
`1 + retry_count` attempts; the terminal `Finish` state follows all per-unit
events; the failing unit's URL is not among the downloaded locations; and a
hash carried only by the failing unit's URL is absent from the reconciled
hash set. -/
theorem downloader_failure_isolation
    (base retry_count : Nat) (units : List (Url × (Nat → Bool)))
    (k : Nat) (hk : k < units.length)
    (hfail : ∀ i, ((units.get ⟨k, hk⟩).2) i = false)
    (hok : ∀ j (hj : j < units.length), j ≠ k →
      unitSucceeds base retry_count ((units.get ⟨j, hj⟩).2) = true)
    (huniq : ∀ j (hj : j < units.length), j ≠ k →
      (units.get ⟨j, hj⟩).1 ≠ (units.get ⟨k, hk⟩).1)
    (m : UrlMap) (acc : Finset String) (hfld : String)
    (hmap : ∀ u, m u = some hfld → u = (units.get ⟨k, hk⟩).1)
    (hacc : hfld ∉ acc) :
    (downloaderRun base retry_count units).1.length = units.length - 1 ∧
    (downloaderRun base retry_count units).2.1 = 1 ∧
    (retryRun ((units.get ⟨k, hk⟩).2) (retryDelays base retry_count) 0).2.1 =
      1 + retry_count ∧
    (downloaderRun base retry_count units).2.2.getLast? = some DownloadState.finish ∧
    (units.get ⟨k, hk⟩).1 ∉ (downloaderRun base retry_count units).1 ∧
    hfld ∉ reconcile m acc (downloaderRun base retry_count units).1 := by
  have hfailedRes : unitSucceeds base retry_count ((units.get ⟨k, hk⟩).2) = false := by
    rw [unitSucceeds, retryRun_allFail _ hfail]
  have hk2 : k < (units.map
      (fun u => (u.1, unitSucceeds base retry_count u.2))).length := by
    rw [List.length_map]; exact hk
  have hgk : (units.map (fun u => (u.1, unitSucceeds base retry_count u.2))).get
      ⟨k, hk2⟩ = ((units.get ⟨k, hk⟩).1, unitSucceeds base retry_count
        ((units.get ⟨k, hk⟩).2)) := by
    simp
  have hflt := filter_length_all_but_one (fun r : Url × Bool => r.2)
    (units.map (fun u => (u.1, unitSucceeds base retry_count u.2))) k hk2
    (by rw [hgk]; exact hfailedRes)
    (by
      intro j hj hjk
      have hj' : j < units.length := by rw [List.length_map] at hj; exact hj
      have hgj : (units.map (fun u => (u.1, unitSucceeds base retry_count u.2))).get
          ⟨j, hj⟩ = ((units.get ⟨j, hj'⟩).1, unitSucceeds base retry_count
            ((units.get ⟨j, hj'⟩).2)) := by
        simp
      rw [hgj]
      exact hok j hj' hjk)
  have hnotin : (units.get ⟨k, hk⟩).1 ∉
      (((units.map (fun u => (u.1, unitSucceeds base retry_count u.2))).filter
        (fun r => r.2)).map Prod.fst) := by
    intro hc
    obtain ⟨r, hrf, hr1⟩ := List.mem_map.mp hc
    have hrmem := (List.mem_filter.mp hrf).1
    have hrp := (List.mem_filter.mp hrf).2
    obtain ⟨u, hu, hgu⟩ := List.mem_map.mp hrmem
    obtain ⟨⟨j, hj⟩, hgetj⟩ := List.mem_iff_get.mp hu
    have hrp' : unitSucceeds base retry_count u.2 = true := by
      rw [← hgu] at hrp
      exact hrp
    by_cases hjk : j = k
    · subst hjk
      have hgetj' : units.get ⟨j, hk⟩ = u := hgetj
      rw [hgetj'] at hfailedRes
      rw [hfailedRes] at hrp'
      exact Bool.false_ne_true hrp'
    · have hne := huniq j hj hjk
      rw [hgetj] at hne
      rw [← hgu] at hr1
      exact hne hr1
  refine ⟨?_, ?_, ?_, ?_, hnotin, ?_⟩
  · show (((units.map (fun u => (u.1, unitSucceeds base retry_count u.2))).filter
      (fun r => r.2)).map Prod.fst).length = units.length - 1
    rw [List.length_map, hflt.1, List.length_map]
  · exact hflt.2.1
  · rw [retryRun_allFail _ hfail]
    show 1 + (retryDelays base retry_count).length = 1 + retry_count
    rw [retryDelays, retryDelays_length]
  · show ((DownloadState.downloadStart units.length ::
      (units.map (fun u => (u.1, unitSucceeds base retry_count u.2))).map
        (fun r => if r.2 then DownloadState.fileDownload
          else DownloadState.downloadError)) ++
      [DownloadState.finish]).getLast? = some DownloadState.finish
    rw [List.getLast?_concat]
  · show hfld ∉ reconcile m acc
      (((units.map (fun u => (u.1, unitSucceeds base retry_count u.2))).filter
        (fun r => r.2)).map Prod.fst)
    rw [reconcile_spec]
    intro hc
    rcases Finset.mem_union.mp hc with hin | hin
    · exact hacc hin
    · obtain ⟨u, hu, hmu⟩ := List.mem_filterMap.mp (List.mem_toFinset.mp hin)
      rw [hmap u hmu] at hu
      exact hnotin hu

/-- A unit that downloads on the first attempt. -/
def unitOK : Url × (Nat → Bool) := (⟨"https://host/a.bin"⟩, fun _ => true)

/-- A unit that fails every attempt. -/
def unitBad : Url × (Nat → Bool) := (⟨"https://host/b.bin"⟩, fun _ => false)

/-- Two download units, the second always failing. -/
def unitsW : List (Url × (Nat → Bool)) := [unitOK, unitBad]

/-- A url-hash map carrying only the failing unit's hash. -/
def mW : UrlMap := fun u => if u = unitBad.1 then some "hbad" else none

/-- C9 witness: the isolation theorem at two concrete units of which the
second always fails. -/
theorem downloader_failure_isolation_witness :
    (downloaderRun 500 3 unitsW).1.length = unitsW.length - 1 ∧
    (downloaderRun 500 3 unitsW).2.1 = 1 ∧
    (retryRun ((unitsW.get ⟨1, by decide⟩).2) (retryDelays 500 3) 0).2.1 = 1 + 3 ∧
    (downloaderRun 500 3 unitsW).2.2.getLast? = some DownloadState.finish ∧
    (unitsW.get ⟨1, by decide⟩).1 ∉ (downloaderRun 500 3 unitsW).1 ∧
    "hbad" ∉ reconcile mW ∅ (downloaderRun 500 3 unitsW).1 :=
  downloader_failure_isolation 500 3 unitsW 1 (by decide)
    (fun _ => rfl)
    (fun j hj hjk => by
      have hlen : unitsW.length = 2 := rfl
      match j with
      | 0 => exact (by decide :
          unitSucceeds 500 3 (unitsW.get ⟨0, Nat.succ_pos 1⟩).2 = true)
      | 1 => exact absurd rfl hjk
      | j + 2 => rw [hlen] at hj; exact absurd hj (by omega))
    (fun j hj hjk => by
      have hlen : unitsW.length = 2 := rfl
      match j with
      | 0 => exact (by decide :
          (unitsW.get ⟨0, Nat.succ_pos 1⟩).1 ≠ (unitsW.get ⟨1, Nat.lt_succ_self 1⟩).1)
      | 1 => exact absurd rfl hjk
      | j + 2 => rw [hlen] at hj; exact absurd hj (by omega))
    mW ∅ "hbad"
    (fun u h => by
      by_cases hu : u = unitBad.1
      · exact hu
      · rw [show mW u = (if u = unitBad.1 then some "hbad" else none) from rfl,
          if_neg hu] at h
        exact absurd h (by simp))
    (by simp)

/-! ## Request checksum (`get_request_checksum`, crypto.rs 31-40)

The checksum is the SHA-1 digest of the concatenation of the session id, the
viewer id string (or empty), the request path and the encoded body, hex
encoded.  SHA-1 (the `sha1` crate) is implemented here over byte lists per
FIPS 180-4; the input strings are ASCII, so UTF-8 bytes coincide with the
character codes. -/

/-- The UTF-8 bytes of an ASCII string, as character codes. -/
def strBytes (s : String) : List Nat := s.data.map (fun c => c.toNat)

/-- 32-bit left rotation. -/
def rotl (n x : Nat) : Nat :=
  Nat.lor ((x <<< n) % 2 ^ 32) (x >>> (32 - n))

/-- The big-endian byte expansion of `v` into `n` bytes. -/
def bytesBE (n v : Nat) : List Nat :=
  (List.range n).map (fun i => (v >>> (8 * (n - 1 - i))) % 256)

/-- Big-endian 32-bit words of a byte list. -/
def wordsOfBytes : List Nat → List Nat
  | b0 :: b1 :: b2 :: b3 :: rest =>
      (b0 <<< 24 + b1 <<< 16 + b2 <<< 8 + b3) :: wordsOfBytes rest
  | _ => []

/-- SHA-1 round constants. -/
def sha1K (t : Nat) : Nat :=
  if t < 20 then 0x5A827999
  else if t < 40 then 0x6ED9EBA1
  else if t < 60 then 0x8F1BBCDC
  else 0xCA62C1D6

/-- SHA-1 round functions. -/
def sha1F (t b c d : Nat) : Nat :=
  if t < 20 then Nat.lor (Nat.land b c) (Nat.land (Nat.xor b 0xFFFFFFFF) d)
  else if t < 40 then Nat.xor (Nat.xor b c) d
  else if t < 60 then Nat.lor (Nat.lor (Nat.land b c) (Nat.land b d)) (Nat.land c d)
  else Nat.xor (Nat.xor b c) d

/-- Extends the 16 message words to the 80-entry schedule. -/
def sha1Schedule (w : List Nat) : List Nat :=
  (List.range 64).foldl (fun ws _ =>
    ws ++ [rotl 1 (Nat.xor
      (Nat.xor (ws.getD (ws.length - 3) 0) (ws.getD (ws.length - 8) 0))
      (Nat.xor (ws.getD (ws.length - 14) 0) (ws.getD (ws.length - 16) 0)))]) w

/-- One SHA-1 compression round. -/
def sha1Round (t wt : Nat) (st : Nat × Nat × Nat × Nat × Nat) :
    Nat × Nat × Nat × Nat × Nat :=
  let temp := (rotl 5 st.1 + sha1F t st.2.1 st.2.2.1 st.2.2.2.1 +
    st.2.2.2.2 + sha1K t + wt) % 2 ^ 32
  (temp, st.1, rotl 30 st.2.1, st.2.2.1, st.2.2.2.1)

/-- Compression of one 64-byte block into the running state. -/
def sha1Block (h : Nat × Nat × Nat × Nat × Nat) (block : List Nat) :
    Nat × Nat × Nat × Nat × Nat :=
  let w := sha1Schedule (wordsOfBytes block)
  let f := (List.range 80).foldl (fun st t => sha1Round t (w.getD t 0) st) h
  ((h.1 + f.1) % 2 ^ 32, (h.2.1 + f.2.1) % 2 ^ 32, (h.2.2.1 + f.2.2.1) % 2 ^ 32,
    (h.2.2.2.1 + f.2.2.2.1) % 2 ^ 32, (h.2.2.2.2 + f.2.2.2.2) % 2 ^ 32)

/-- SHA-1 of a byte list: pad to a multiple of 64 bytes with 0x80, zeros and
the big-endian 64-bit bit length, then compress each block. -/
def sha1 (msg : List Nat) : List Nat :=
  let padLen := (119 - (msg.length % 64)) % 64
  let padded := msg ++ 0x80 :: (List.replicate padLen 0 ++ bytesBE 8 (msg.length * 8))
  let blocks := (List.range (padded.length / 64)).map
    (fun i => (padded.drop (64 * i)).take 64)
  let h := blocks.foldl sha1Block
    (0x67452301, 0xEFCDAB89, 0x98BADCFE, 0x10325476, 0xC3D2E1F0)
  bytesBE 4 h.1 ++ bytesBE 4 h.2.1 ++ bytesBE 4 h.2.2.1 ++
    bytesBE 4 h.2.2.2.1 ++ bytesBE 4 h.2.2.2.2

/-- Lower-case hex digit. -/
def hexChar (n : Nat) : Char :=
  if n < 10 then Char.ofNat (48 + n) else Char.ofNat (87 + n)

/-- `hex::encode` of a byte list. -/
def hexEncode (bytes : List Nat) : String :=
  ⟨bytes.flatMap (fun b => [hexChar (b / 16), hexChar (b % 16)])⟩

/-- `get_request_checksum` (crypto.rs lines 31-40): the SHA-1 digest of
uuid, viewer id, api path and body, hex encoded. -/
def get_request_checksum (uuid viewer_id api_path body : String) : String :=
  hexEncode (sha1 (strBytes uuid ++ strBytes viewer_id ++ strBytes api_path ++
    strBytes body))

/-- The viewer id string attached by `WafuriAPIClient::build_post` (client.rs
line 64): the numeral when a viewer session exists, the empty string
otherwise. -/
def viewerHeaderValue (viewer_id : Option Nat) : String :=
  match viewer_id with
  | some id => toString id
  | none => ""

set_option maxRecDepth 20000 in
/-- C7: the checksum is a pure function of its four string inputs — equal
inputs give the identical digest — and on the spec's concrete example
(session id, no viewer session, signup path, body `A=`) it computes the
expected digest. -/
theorem get_request_checksum_spec :
    (∀ u₁ v₁ p₁ b₁ u₂ v₂ p₂ b₂, u₁ = u₂ → v₁ = v₂ → p₁ = p₂ → b₁ = b₂ →
      get_request_checksum u₁ v₁ p₁ b₁ = get_request_checksum u₂ v₂ p₂ b₂) ∧
    get_request_checksum "EA5D7426-42A6-474B-26B7-624F5F9B3AF102B3"
      (viewerHeaderValue none) "/api/index.php/tool/signup" "A=" =
      "4749e61694c31600ad5e564bf22b8e3c68d8d26d" := by
  constructor
  · intro u₁ v₁ p₁ b₁ u₂ v₂ p₂ b₂ hu hv hp hb
    rw [hu, hv, hp, hb]
  · decide

/-! ## Wire envelope (`encode_base64_msgpack` / `decode_base64_msgpack`,
crypto.rs 11-24)

The envelope serializes a payload to msgpack (`rmp_serde::to_vec_named`) and
encodes the bytes as standard base64 (`BASE64_STANDARD`); decoding is the
reverse.  Both layers are external crates, modelled here from their documented
formats: base64 with the standard alphabet, mandatory canonical padding and
rejection of non-zero trailing bits (the `STANDARD` engine), and msgpack for
the two-field example payload the repository's own crypto test round-trips
(`ExampleStruct { name, level }`), with the integer and string families the
`rmp_serde` reader accepts for those fields. -/

/-- The standard base64 alphabet. -/
def b64Char (n : Nat) : Char :=
  if n < 26 then Char.ofNat (65 + n)
  else if n < 52 then Char.ofNat (97 + (n - 26))
  else if n < 62 then Char.ofNat (48 + (n - 52))
  else if n = 62 then '+'
  else '/'

/-- Index of a character in the standard base64 alphabet. -/
def b64Index (c : Char) : Option Nat :=
  if 65 ≤ c.toNat ∧ c.toNat ≤ 90 then some (c.toNat - 65)
  else if 97 ≤ c.toNat ∧ c.toNat ≤ 122 then some (c.toNat - 97 + 26)
  else if 48 ≤ c.toNat ∧ c.toNat ≤ 57 then some (c.toNat - 48 + 52)
  else if c = '+' then some 62
  else if c = '/' then some 63
  else none

/-- Standard base64 encoding of a byte list, with padding. -/
def b64EncodeChars : List Nat → List Char
  | [] => []
  | [b0] => [b64Char (b0 / 4), b64Char ((b0 % 4) * 16), '=', '=']
  | [b0, b1] => [b64Char (b0 / 4), b64Char ((b0 % 4) * 16 + b1 / 16),
      b64Char ((b1 % 16) * 4), '=']
  | b0 :: b1 :: b2 :: rest =>
      b64Char (b0 / 4) :: b64Char ((b0 % 4) * 16 + b1 / 16) ::
        b64Char ((b1 % 16) * 4 + b2 / 64) :: b64Char (b2 % 64) ::
        b64EncodeChars rest

/-- Strict standard base64 decoding: length must be a multiple of four,
padding must be canonical and trailing bits must be zero (the `STANDARD`
engine rejects everything else). -/
def b64DecodeChars : List Char → Option (List Nat)
  | [] => some []
  | c0 :: c1 :: c2 :: c3 :: rest =>
      match b64Index c0, b64Index c1 with
      | some n0, some n1 =>
          if c2 = '=' then
            if c3 = '=' ∧ rest = [] ∧ n1 % 16 = 0 then some [n0 * 4 + n1 / 16]
            else none
          else
            match b64Index c2 with
            | some n2 =>
                if c3 = '=' then
                  if rest = [] ∧ n2 % 4 = 0 then
                    some [n0 * 4 + n1 / 16, (n1 % 16) * 16 + n2 / 4]
                  else none
                else
                  match b64Index c3 with
                  | some n3 =>
                      (b64DecodeChars rest).map (fun bs =>
                        (n0 * 4 + n1 / 16) :: ((n1 % 16) * 16 + n2 / 4) ::
                          ((n2 % 4) * 64 + n3) :: bs)
                  | none => none
            | none => none
      | _, _ => none
  | _ => none

theorem b64Index_b64Char : ∀ n, n < 64 → b64Index (b64Char n) = some n := by
  decide

theorem b64Char_ne_pad : ∀ n, n < 64 → b64Char n ≠ '=' := by
  decide

theorem b64_roundtrip : ∀ (bs : List Nat), (∀ b ∈ bs, b < 256) →
    b64DecodeChars (b64EncodeChars bs) = some bs
  | [], _ => rfl
  | [b0], h => by
      have hb0 : b0 < 256 := h b0 (by simp)
      have h0 := b64Index_b64Char (b0 / 4) (by omega)
      have h1 := b64Index_b64Char ((b0 % 4) * 16) (by omega)
      rw [b64EncodeChars]
      simp only [b64DecodeChars, h0, h1]
      rw [if_pos trivial,
        if_pos (⟨trivial, trivial, by omega⟩ : True ∧ True ∧ b0 % 4 * 16 % 16 = 0)]
      congr 2
      omega
  | [b0, b1], h => by
      have hb0 : b0 < 256 := h b0 (by simp)
      have hb1 : b1 < 256 := h b1 (by simp)
      have h0 := b64Index_b64Char (b0 / 4) (by omega)
      have h1 := b64Index_b64Char ((b0 % 4) * 16 + b1 / 16) (by omega)
      have h2 := b64Index_b64Char ((b1 % 16) * 4) (by omega)
      rw [b64EncodeChars]
      simp only [b64DecodeChars, h0, h1]
      rw [if_neg (b64Char_ne_pad ((b1 % 16) * 4) (by omega))]
      simp only [h2]
      rw [if_pos trivial,
        if_pos (⟨trivial, by omega⟩ : True ∧ b1 % 16 * 4 % 4 = 0)]
      congr 2
      · omega
      · congr 1
        omega
  | [b0, b1, b2], h => by
      have hb0 : b0 < 256 := h b0 (by simp)
      have hb1 : b1 < 256 := h b1 (by simp)
      have hb2 : b2 < 256 := h b2 (by simp)
      have h0 := b64Index_b64Char (b0 / 4) (by omega)
      have h1 := b64Index_b64Char ((b0 % 4) * 16 + b1 / 16) (by omega)
      have h2 := b64Index_b64Char ((b1 % 16) * 4 + b2 / 64) (by omega)
      have h3 := b64Index_b64Char (b2 % 64) (by omega)
      rw [show b64EncodeChars [b0, b1, b2] =
        b64Char (b0 / 4) :: b64Char ((b0 % 4) * 16 + b1 / 16) ::
          b64Char ((b1 % 16) * 4 + b2 / 64) :: b64Char (b2 % 64) ::
          b64EncodeChars [] from rfl]
      simp only [b64DecodeChars, h0, h1]
      rw [if_neg (b64Char_ne_pad ((b1 % 16) * 4 + b2 / 64) (by omega))]
      simp only [h2]
      rw [if_neg (b64Char_ne_pad (b2 % 64) (by omega))]
      simp only [h3, Option.map_some']
      congr 2
      · omega
      · congr 1
        · omega
        · congr 1
          omega
  | b0 :: b1 :: b2 :: b3 :: rest, h => by
      have hb0 : b0 < 256 := h b0 (by simp)
      have hb1 : b1 < 256 := h b1 (by simp)
      have hb2 : b2 < 256 := h b2 (by simp)
      have h0 := b64Index_b64Char (b0 / 4) (by omega)
      have h1 := b64Index_b64Char ((b0 % 4) * 16 + b1 / 16) (by omega)
      have h2 := b64Index_b64Char ((b1 % 16) * 4 + b2 / 64) (by omega)
      have h3 := b64Index_b64Char (b2 % 64) (by omega)
      rw [show b64EncodeChars (b0 :: b1 :: b2 :: b3 :: rest) =
        b64Char (b0 / 4) :: b64Char ((b0 % 4) * 16 + b1 / 16) ::
          b64Char ((b1 % 16) * 4 + b2 / 64) :: b64Char (b2 % 64) ::
          b64EncodeChars (b3 :: rest) from rfl]
      simp only [b64DecodeChars, h0, h1]
      rw [if_neg (b64Char_ne_pad ((b1 % 16) * 4 + b2 / 64) (by omega))]
      simp only [h2]
      rw [if_neg (b64Char_ne_pad (b2 % 64) (by omega))]
      simp only [h3]
      rw [b64_roundtrip (b3 :: rest) (fun b hb => h b (by simp [hb]))]
      simp only [Option.map_some']
      congr 2
      · omega
      · congr 1
        · omega
        · congr 1
          omega

/-- The example payload round-tripped by the repository's own crypto test
(`ExampleStruct { name: String, level: u8 }`), carried at byte level: `name`
is the UTF-8 byte list of the string. -/
structure ExampleStruct where
  name : List Nat
  level : Nat
deriving DecidableEq, Repr

/-- Well-formedness of the payload: the name is a byte string short enough
for msgpack's str32 and the level fits `u8`. -/
def ExampleStruct.WF (x : ExampleStruct) : Prop :=
  (∀ b ∈ x.name, b < 256) ∧ x.name.length < 2 ^ 32 ∧ x.level < 256

/-- msgpack str encoding (`rmp` picks the smallest of fixstr, str8, str16,
str32). -/
def mpStr (k : List Nat) : List Nat :=
  if k.length < 32 then (0xa0 + k.length) :: k
  else if k.length < 256 then 0xd9 :: k.length :: k
  else if k.length < 2 ^ 16 then
    0xda :: (k.length / 256) :: (k.length % 256) :: k
  else
    0xdb :: (k.length / 2 ^ 24 % 256) :: (k.length / 2 ^ 16 % 256) ::
      (k.length / 256 % 256) :: (k.length % 256) :: k

/-- msgpack minimal unsigned-integer encoding (`rmp::encode::write_uint`):
positive fixint below 128, then uint8/uint16/uint32. -/
def mpUint (n : Nat) : List Nat :=
  if n < 128 then [n]
  else if n < 256 then [0xcc, n]
  else if n < 2 ^ 16 then [0xcd, n / 256, n % 256]
  else [0xce, n / 2 ^ 24 % 256, n / 2 ^ 16 % 256, n / 256 % 256, n % 256]

/-- Reads `n` raw bytes: the common tail of every str format. -/
def readBytesN (n : Nat) (l : List Nat) : Option (List Nat × List Nat) :=
  if n ≤ l.length then some (l.take n, l.drop n) else none

/-- str8 payload: one length byte. -/
def mpReadStr8 : List Nat → Option (List Nat × List Nat)
  | n :: rest => readBytesN n rest
  | [] => none

/-- str16 payload: two big-endian length bytes. -/
def mpReadStr16 : List Nat → Option (List Nat × List Nat)
  | h1 :: h0 :: rest => readBytesN (h1 * 256 + h0) rest
  | _ => none

/-- str32 payload: four big-endian length bytes. -/
def mpReadStr32 : List Nat → Option (List Nat × List Nat)
  | h3 :: h2 :: h1 :: h0 :: rest =>
      readBytesN (((h3 * 256 + h2) * 256 + h1) * 256 + h0) rest
  | _ => none

/-- Dispatch on the str marker byte. -/
def mpReadStrBody (b : Nat) (rest : List Nat) : Option (List Nat × List Nat) :=
  if 0xa0 ≤ b ∧ b ≤ 0xbf then readBytesN (b - 0xa0) rest
  else if b = 0xd9 then mpReadStr8 rest
  else if b = 0xda then mpReadStr16 rest
  else if b = 0xdb then mpReadStr32 rest
  else none

/-- Reads one msgpack str value (any of the four formats the `rmp` reader
accepts for a string), returning its bytes and the remaining input. -/
def mpReadStr : List Nat → Option (List Nat × List Nat)
  | [] => none
  | b :: rest => mpReadStrBody b rest

/-- uint8 payload. -/
def mpReadU8 : List Nat → Option (Nat × List Nat)
  | v :: r => some (v, r)
  | [] => none

/-- uint16 payload, big endian. -/
def mpReadU16 : List Nat → Option (Nat × List Nat)
  | h1 :: h0 :: r => some (h1 * 256 + h0, r)
  | _ => none

/-- uint32 payload, big endian. -/
def mpReadU32 : List Nat → Option (Nat × List Nat)
  | h3 :: h2 :: h1 :: h0 :: r => some (((h3 * 256 + h2) * 256 + h1) * 256 + h0, r)
  | _ => none

/-- Dispatch on the unsigned-integer marker byte. -/
def mpReadUintBody (b : Nat) (rest : List Nat) : Option (Nat × List Nat) :=
  if b < 128 then some (b, rest)
  else if b = 0xcc then mpReadU8 rest
  else if b = 0xcd then mpReadU16 rest
  else if b = 0xce then mpReadU32 rest
  else none

/-- Reads one msgpack unsigned integer (any of the formats the `rmp` reader
accepts for an unsigned value), returning it and the remaining input. -/
def mpReadUint : List Nat → Option (Nat × List Nat)
  | [] => none
  | b :: rest => mpReadUintBody b rest

theorem readBytesN_append (k r : List Nat) : readBytesN k.length (k ++ r) = some (k, r) := by
  rw [readBytesN, if_pos (by rw [List.length_append]; omega)]
  rw [List.take_left, List.drop_left]

theorem mpReadStr_mpStr (k r : List Nat) (hlen : k.length < 2 ^ 32) :
    mpReadStr (mpStr k ++ r) = some (k, r) := by
  by_cases h32 : k.length < 32
  · rw [mpStr, if_pos h32]
    show mpReadStrBody (0xa0 + k.length) (k ++ r) = _
    rw [mpReadStrBody, if_pos ⟨by omega, by omega⟩]
    rw [show 0xa0 + k.length - 0xa0 = k.length from by omega, readBytesN_append]
  · by_cases h256 : k.length < 256
    · rw [mpStr, if_neg h32, if_pos h256]
      show mpReadStrBody 0xd9 (k.length :: (k ++ r)) = _
      rw [mpReadStrBody, if_neg (by omega), if_pos rfl]
      show readBytesN k.length (k ++ r) = _
      rw [readBytesN_append]
    · by_cases h16 : k.length < 2 ^ 16
      · rw [mpStr, if_neg h32, if_neg h256, if_pos h16]
        show mpReadStrBody 0xda (k.length / 256 :: (k.length % 256 :: (k ++ r))) = _
        rw [mpReadStrBody, if_neg (by omega), if_neg (by omega), if_pos rfl]
        show readBytesN (k.length / 256 * 256 + k.length % 256) (k ++ r) = _
        rw [show k.length / 256 * 256 + k.length % 256 = k.length from by omega]
        rw [readBytesN_append]
      · rw [mpStr, if_neg h32, if_neg h256, if_neg h16]
        show mpReadStrBody 0xdb (k.length / 2 ^ 24 % 256 :: (k.length / 2 ^ 16 % 256 ::
          (k.length / 256 % 256 :: (k.length % 256 :: (k ++ r))))) = _
        rw [mpReadStrBody, if_neg (by omega), if_neg (by omega), if_neg (by omega),
          if_pos rfl]
        show readBytesN (((k.length / 2 ^ 24 % 256 * 256 + k.length / 2 ^ 16 % 256) * 256 +
          k.length / 256 % 256) * 256 + k.length % 256) (k ++ r) = _
        rw [show ((k.length / 2 ^ 24 % 256 * 256 + k.length / 2 ^ 16 % 256) * 256 +
          k.length / 256 % 256) * 256 + k.length % 256 = k.length from by omega]
        rw [readBytesN_append]

theorem mpReadUint_mpUint (n : Nat) (r : List Nat) (hn : n < 2 ^ 32) :
    mpReadUint (mpUint n ++ r) = some (n, r) := by
  by_cases h128 : n < 128
  · rw [mpUint, if_pos h128]
    show mpReadUintBody n r = _
    rw [mpReadUintBody, if_pos h128]
  · by_cases h256 : n < 256
    · rw [mpUint, if_neg h128, if_pos h256]
      show mpReadUintBody 0xcc (n :: r) = _
      rw [mpReadUintBody, if_neg (by omega), if_pos rfl]
      rfl
    · by_cases h16 : n < 2 ^ 16
      · rw [mpUint, if_neg h128, if_neg h256, if_pos h16]
        show mpReadUintBody 0xcd (n / 256 :: (n % 256 :: r)) = _
        rw [mpReadUintBody, if_neg (by omega), if_neg (by omega), if_pos rfl]
        show some (n / 256 * 256 + n % 256, r) = _
        rw [show n / 256 * 256 + n % 256 = n from by omega]
      · rw [mpUint, if_neg h128, if_neg h256, if_neg h16]
        show mpReadUintBody 0xce (n / 2 ^ 24 % 256 :: (n / 2 ^ 16 % 256 ::
          (n / 256 % 256 :: (n % 256 :: r)))) = _
        rw [mpReadUintBody, if_neg (by omega), if_neg (by omega), if_neg (by omega),
          if_pos rfl]
        show some (((n / 2 ^ 24 % 256 * 256 + n / 2 ^ 16 % 256) * 256 +
          n / 256 % 256) * 256 + n % 256, r) = _
        rw [show ((n / 2 ^ 24 % 256 * 256 + n / 2 ^ 16 % 256) * 256 +
          n / 256 % 256) * 256 + n % 256 = n from by omega]

/-- `rmp_serde::to_vec_named` on the example payload: a two-entry map with
the field names as str keys in declaration order, the name as a str and the
level as a minimal uint. -/
def mpEncodeExample (x : ExampleStruct) : List Nat :=
  0x82 :: (mpStr (strBytes "name") ++ (mpStr x.name ++
    (mpStr (strBytes "level") ++ mpUint x.level)))

/-- `rmp_serde::from_slice` on the example payload, modelled for two-entry
maps: the two fields may arrive in either order, each key as any str format,
the name value as any str format and the level value as any unsigned format
whose value fits `u8`. -/
def mpDecodeExample (bytes : List Nat) : Option ExampleStruct :=
  match bytes with
  | [] => none
  | b :: rest =>
      if b = 0x82 then
        match mpReadStr rest with
        | none => none
        | some (k1, rest1) =>
            if k1 = strBytes "name" then
              match mpReadStr rest1 with
              | none => none
              | some (v1, rest2) =>
                  match mpReadStr rest2 with
                  | none => none
                  | some (k2, rest3) =>
                      if k2 = strBytes "level" then
                        match mpReadUint rest3 with
                        | none => none
                        | some (lv, rest4) =>
                            if lv < 256 ∧ rest4 = [] then some ⟨v1, lv⟩ else none
                      else none
            else if k1 = strBytes "level" then
              match mpReadUint rest1 with
              | none => none
              | some (lv, rest2) =>
                  match mpReadStr rest2 with
                  | none => none
                  | some (k2, rest3) =>
                      if k2 = strBytes "name" then
                        match mpReadStr rest3 with
                        | none => none
                        | some (v1, rest4) =>
                            if lv < 256 ∧ rest4 = [] then some ⟨v1, lv⟩ else none
                      else none
            else none
      else none

theorem mpDecode_mpEncode (x : ExampleStruct) (h : x.WF) :
    mpDecodeExample (mpEncodeExample x) = some x := by
  obtain ⟨hname, hlen, hlv⟩ := h
  have h1 := mpReadStr_mpStr (strBytes "name")
    (mpStr x.name ++ (mpStr (strBytes "level") ++ mpUint x.level)) (by decide)
  have h2 := mpReadStr_mpStr x.name (mpStr (strBytes "level") ++ mpUint x.level) hlen
  have h3 := mpReadStr_mpStr (strBytes "level") (mpUint x.level) (by decide)
  have h4 : mpReadUint (mpUint x.level) = some (x.level, []) := by
    have h5 := mpReadUint_mpUint x.level [] (by omega)
    rwa [List.append_nil] at h5
  rw [mpEncodeExample]
  simp only [mpDecodeExample, h1, h2, h3, h4]
  simp [hlv]

theorem mpStr_bytes_lt (k : List Nat) (hk : ∀ b ∈ k, b < 256) :
    ∀ b ∈ mpStr k, b < 256 := by
  intro b hb
  rw [mpStr] at hb
  by_cases h32 : k.length < 32
  · rw [if_pos h32] at hb
    rcases List.mem_cons.mp hb with rfl | hmem
    · omega
    · exact hk _ hmem
  · by_cases h256 : k.length < 256
    · rw [if_neg h32, if_pos h256] at hb
      rcases List.mem_cons.mp hb with rfl | hb1
      · omega
      rcases List.mem_cons.mp hb1 with rfl | hmem
      · omega
      · exact hk _ hmem
    · by_cases h16 : k.length < 2 ^ 16
      · rw [if_neg h32, if_neg h256, if_pos h16] at hb
        rcases List.mem_cons.mp hb with rfl | hb1
        · omega
        rcases List.mem_cons.mp hb1 with rfl | hb2
        · omega
        rcases List.mem_cons.mp hb2 with rfl | hmem
        · omega
        · exact hk _ hmem
      · rw [if_neg h32, if_neg h256, if_neg h16] at hb
        rcases List.mem_cons.mp hb with rfl | hb1
        · omega
        rcases List.mem_cons.mp hb1 with rfl | hb2
        · omega
        rcases List.mem_cons.mp hb2 with rfl | hb3
        · omega
        rcases List.mem_cons.mp hb3 with rfl | hb4
        · omega
        rcases List.mem_cons.mp hb4 with rfl | hmem
        · omega
        · exact hk _ hmem

theorem mpUint_bytes_lt (n : Nat) (hn : n < 256) :
    ∀ b ∈ mpUint n, b < 256 := by
  intro b hb
  rw [mpUint] at hb
  by_cases h128 : n < 128
  · rw [if_pos h128] at hb
    rcases List.mem_cons.mp hb with rfl | hmem
    · omega
    · exact absurd hmem (by simp)
  · rw [if_neg h128, if_pos hn] at hb
    rcases List.mem_cons.mp hb with rfl | hb1
    · omega
    rcases List.mem_cons.mp hb1 with rfl | hmem
    · omega
    · exact absurd hmem (by simp)

theorem mpEncode_bytes_lt (x : ExampleStruct) (h : x.WF) :
    ∀ b ∈ mpEncodeExample x, b < 256 := by
  obtain ⟨hname, _, hlv⟩ := h
  intro b hb
  rw [mpEncodeExample] at hb
  rcases List.mem_cons.mp hb with rfl | hb1
  · omega
  rcases List.mem_append.mp hb1 with hm | hb2
  · exact mpStr_bytes_lt _ (by decide) _ hm
  rcases List.mem_append.mp hb2 with hm | hb3
  · exact mpStr_bytes_lt _ hname _ hm
  rcases List.mem_append.mp hb3 with hm | hm
  · exact mpStr_bytes_lt _ (by decide) _ hm
  · exact mpUint_bytes_lt _ hlv _ hm

/-- `encode_base64_msgpack` (crypto.rs lines 11-15) on the example payload:
msgpack then standard base64. -/
def encode_base64_msgpack (x : ExampleStruct) : String :=
  ⟨b64EncodeChars (mpEncodeExample x)⟩

/-- `decode_base64_msgpack` (crypto.rs lines 20-24) on the example payload:
standard base64 decode then msgpack decode, each failure propagating. -/
def decode_base64_msgpack (s : String) : Option ExampleStruct :=
  (b64DecodeChars s.data).bind mpDecodeExample

/-- C8 (amended): for every well-formed payload, decoding its encoding yields
it back, and every envelope string in the image of the encoder round-trips
back to itself through decode-then-encode.  (The corresponding statement over
arbitrary decodable strings is false; see the counterexample.) -/
theorem envelope_roundtrip (x : ExampleStruct) (h : x.WF) :
    decode_base64_msgpack (encode_base64_msgpack x) = some x ∧
    ∀ s, s = encode_base64_msgpack x →
      ∃ y, decode_base64_msgpack s = some y ∧ encode_base64_msgpack y = s := by
  have hd : decode_base64_msgpack (encode_base64_msgpack x) = some x := by
    rw [decode_base64_msgpack, encode_base64_msgpack]
    show (b64DecodeChars (b64EncodeChars (mpEncodeExample x))).bind mpDecodeExample = _
    rw [b64_roundtrip _ (mpEncode_bytes_lt x h)]
    show mpDecodeExample (mpEncodeExample x) = _
    rw [mpDecode_mpEncode x h]
  exact ⟨hd, fun s hs => ⟨x, hs ▸ hd, hs.symm⟩⟩

/-- C8 witness: the round-trip theorem at the payload of the repository's own
crypto test (name `stella`, level 254). -/
theorem envelope_roundtrip_witness :
    decode_base64_msgpack (encode_base64_msgpack ⟨strBytes "stella", 254⟩) =
      some ⟨strBytes "stella", 254⟩ ∧
    ∀ s, s = encode_base64_msgpack ⟨strBytes "stella", 254⟩ →
      ∃ y, decode_base64_msgpack s = some y ∧ encode_base64_msgpack y = s :=
  envelope_roundtrip ⟨strBytes "stella", 254⟩ ⟨by decide, by decide, by decide⟩

/-- An envelope whose msgpack body encodes the level 100 with the two-byte
uint8 form `cc 64` rather than the minimal positive fixint `64`; msgpack
readers accept it. -/
def ncLevelBytes : List Nat :=
  0x82 :: (mpStr (strBytes "name") ++ (mpStr (strBytes "stella") ++
    (mpStr (strBytes "level") ++ [0xcc, 100])))

/-- C8 counterexample: a well-formed envelope string that decodes
successfully but is not reproduced by re-encoding — the encoder emits the
minimal integer form, so encode-after-decode canonicalizes the envelope
instead of returning it.  Hence decode-then-encode is not the identity on all
well-formed envelope strings. -/
theorem c8_noncanonical_counterexample :
    decode_base64_msgpack ⟨b64EncodeChars ncLevelBytes⟩ =
      some ⟨strBytes "stella", 100⟩ ∧
    encode_base64_msgpack ⟨strBytes "stella", 100⟩ ≠ ⟨b64EncodeChars ncLevelBytes⟩ := by
  constructor
  · decide
  · decide

end Starview
